import Mathlib

/-
  Verification of the concurrent scheduling core of `mts.c` (multi-train
  scheduler).  The C source is shallowly embedded: the pure scheduling
  functions (`ready_comes_before`, `queue_push`, `queue_pop`,
  `choose_from_pair`, `choose_next_idx_full`, the streak bookkeeping of
  `train_thread`, `parse_line`, `load_trains`) become Lean functions on
  lists, and the concurrent part (train threads + dispatcher, all mutation
  under `scheduling_mutex`) becomes a small-step transition relation whose
  atomic steps are the lock-held critical sections of the C code.
-/

/-- Direction of travel, `direction_t` in mts.c. -/
inductive direction_t : Type
  | EAST : direction_t
  | WEST : direction_t
deriving DecidableEq

/-- A ready-queue node `(idx, ready_ns)`, `ready_node` in mts.c (sans the
intrusive next pointer, which the Lean list provides). -/
abbrev QNode : Type := Nat × Int

/-- State protected by `scheduling_mutex` in mts.c: the four ready queues
(`east_high`, `east_low`, `west_high`, `west_low`) and the scheduling
counters, excluding `track_in_use`/`trains_finished` which live in the
system-level state below. -/
structure SchedState : Type where
  east_high : List QNode
  east_low  : List QNode
  west_high : List QNode
  west_low  : List QNode
  have_ever_crossed : Bool
  last_dir : direction_t
  same_dir_streak : Nat
deriving DecidableEq

/-- Embedding of `ready_comes_before(idxA, nsA, idxB, nsB)`: returns true
when (idxA, nsA) should appear before (idxB, nsB) in a queue. -/
def ready_comes_before (idxA : Nat) (nsA : Int) (idxB : Nat) (nsB : Int) : Bool :=
  if nsA < nsB then true
  else if nsA > nsB then false
  else decide (idxA < idxB)

/-- Embedding of `queue_push(head, idx, ready_ns)`: insert into the sorted
singly-linked list, walking past nodes while the new node does not come
before them. -/
def queue_push (q : List QNode) (idx : Nat) (ns : Int) : List QNode :=
  match q with
  | [] => [(idx, ns)]
  | c :: rest =>
      if ready_comes_before idx ns c.1 c.2 then (idx, ns) :: c :: rest
      else c :: queue_push rest idx ns

/-- Embedding of `queue_pop(head)`: `none` models the C return value -1 on
an empty queue; otherwise the head index together with the remaining list. -/
def queue_pop (q : List QNode) : Option (Nat × List QNode) :=
  match q with
  | [] => none
  | n :: rest => some (n.1, rest)

/-- Embedding of `any_ready()`. -/
def any_ready (s : SchedState) : Bool :=
  !s.east_high.isEmpty || !s.east_low.isEmpty || !s.west_high.isEmpty || !s.west_low.isEmpty

/-- Embedding of `choose_from_pair(&A, &B)`: the boolean records whether the
pop came from A (true) or B (false); the two lists returned are the queues
after the pop.  In the C code `peek_idx` is -1 exactly on an empty queue, so
the `ai >= 0 && bi >= 0` test is the both-nonempty test. -/
def choose_from_pair (A B : List QNode) : Option (Bool × Nat × List QNode × List QNode) :=
  match A, B with
  | a :: ra, b :: rb =>
      if ready_comes_before a.1 a.2 b.1 b.2 then some (true, a.1, ra, b :: rb)
      else some (false, b.1, a :: ra, rb)
  | a :: ra, [] => some (true, a.1, ra, [])
  | [], b :: rb => some (false, b.1, [], rb)
  | [], [] => none

/-- Normal rule of `choose_next_idx_full` (its last section): compare the
High queues if either is non-empty, else the Low queues, else none.  The
returned direction records which queue the index was popped from. -/
def choose_normal (s : SchedState) : Option (Nat × direction_t × SchedState) :=
  if !s.east_high.isEmpty || !s.west_high.isEmpty then
    match choose_from_pair s.east_high s.west_high with
    | some (true,  i, A, B) => some (i, direction_t.EAST, { s with east_high := A, west_high := B })
    | some (false, i, A, B) => some (i, direction_t.WEST, { s with east_high := A, west_high := B })
    | none => none
  else if !s.east_low.isEmpty || !s.west_low.isEmpty then
    match choose_from_pair s.east_low s.west_low with
    | some (true,  i, A, B) => some (i, direction_t.EAST, { s with east_low := A, west_low := B })
    | some (false, i, A, B) => some (i, direction_t.WEST, { s with east_low := A, west_low := B })
    | none => none
  else none

/-- Balancing section of `choose_next_idx_full`: after two same-direction
crossings (`same_dir_streak >= 2`) inspect the opposite direction's queues,
High then Low; if both are empty fall through to the normal rule. -/
def choose_balanced (s : SchedState) : Option (Nat × direction_t × SchedState) :=
  if 2 ≤ s.same_dir_streak then
    match s.last_dir with
    | direction_t.EAST =>
        match s.west_high, s.west_low with
        | n :: r, _ => some (n.1, direction_t.WEST, { s with west_high := r })
        | [], n :: r => some (n.1, direction_t.WEST, { s with west_low := r })
        | [], [] => choose_normal s
    | direction_t.WEST =>
        match s.east_high, s.east_low with
        | n :: r, _ => some (n.1, direction_t.EAST, { s with east_high := r })
        | [], n :: r => some (n.1, direction_t.EAST, { s with east_low := r })
        | [], [] => choose_normal s
  else choose_normal s

/-- Embedding of `choose_next_idx_full()`: bootstrap section (before the
first crossing prefer WEST if any WEST train is ready), then balancing,
then the normal rule.  `none` models the C return value -1. -/
def choose_next_idx_full (s : SchedState) : Option (Nat × direction_t × SchedState) :=
  match s.have_ever_crossed, s.west_high, s.west_low with
  | false, n :: r, _ => some (n.1, direction_t.WEST, { s with west_high := r })
  | false, [], n :: r => some (n.1, direction_t.WEST, { s with west_low := r })
  | false, [], [] => choose_balanced s
  | true, _, _ => choose_balanced s

/-- Done-state bookkeeping of `train_thread` (lines 298-307 of mts.c), run
under the lock when a train of direction `d` leaves the track: set
`have_ever_crossed`, extend or reset the same-direction streak. -/
def finish_update (d : direction_t) (s : SchedState) : SchedState :=
  { s with
      have_ever_crossed := true,
      last_dir := if d = s.last_dir then s.last_dir else d,
      same_dir_streak := if d = s.last_dir then s.same_dir_streak + 1 else 1 }

/-- Dispatch order of a roster whose trains are all already enqueued and no
further train arrives: repeatedly select with `choose_next_idx_full`, let
the selected train cross, and apply the Done bookkeeping.  Fuel bounds the
number of dispatches. -/
def runSchedule : Nat → SchedState → List Nat
  | 0, _ => []
  | fuel + 1, s =>
      match choose_next_idx_full s with
      | none => []
      | some (i, d, s') => i :: runSchedule fuel (finish_update d s')

/-- Indices currently waiting in one queue. -/
def qIds (q : List QNode) : List Nat := q.map Prod.fst

/-- Indices currently waiting in any of the four ready queues, in queue
order (east_high, east_low, west_high, west_low). -/
def queuedIds (s : SchedState) : List Nat :=
  qIds s.east_high ++ qIds s.east_low ++ qIds s.west_high ++ qIds s.west_low

/-- Total number of waiting trains. -/
def totalReady (s : SchedState) : Nat := (queuedIds s).length

/-- Whitespace in the sense of `sscanf` (space, \t, \n, \v, \f, \r). -/
def isWS (c : Char) : Bool :=
  c.toNat = 32 || c.toNat = 9 || c.toNat = 10 || c.toNat = 11 || c.toNat = 12 || c.toNat = 13

/-- ASCII decimal digit. -/
def isDigitC (c : Char) : Bool := 48 ≤ c.toNat && c.toNat ≤ 57

/-- Skip scanf whitespace. -/
def skipWS : List Char → List Char
  | [] => []
  | c :: cs => if isWS c then skipWS cs else c :: cs

/-- Consume a maximal run of digits, accumulating the decimal value. -/
def digitsLoop : List Char → Nat → Nat × List Char
  | [], acc => (acc, [])
  | c :: cs, acc =>
      if isDigitC c then digitsLoop cs (acc * 10 + (c.toNat - 48)) else (acc, c :: cs)

/-- A nonempty digit run, as required by scanf %d after the optional sign. -/
def scanNat : List Char → Option (Nat × List Char)
  | [] => none
  | c :: cs => if isDigitC c then some (digitsLoop (c :: cs) 0) else none

/-- Model of one scanf " %d" conversion: skip whitespace, optional sign,
then at least one digit. -/
def scanInt (cs : List Char) : Option (Int × List Char) :=
  match skipWS cs with
  | '-' :: rest =>
      match scanNat rest with
      | some (n, r) => some (-(n : Int), r)
      | none => none
  | '+' :: rest =>
      match scanNat rest with
      | some (n, r) => some ((n : Int), r)
      | none => none
  | other =>
      match scanNat other with
      | some (n, r) => some ((n : Int), r)
      | none => none

/-- Model of one scanf " %c" conversion: skip whitespace, take one char. -/
def scanChar (cs : List Char) : Option (Char × List Char) :=
  match skipWS cs with
  | [] => none
  | c :: rest => some (c, rest)

/-- Model of `sscanf(line, " %c %d %d", &c, &load, &cross) == 3`. -/
def scanLine (cs : List Char) : Option (Char × Int × Int) :=
  match scanChar cs with
  | none => none
  | some (c, r1) =>
      match scanInt r1 with
      | none => none
      | some (load, r2) =>
          match scanInt r2 with
          | none => none
          | some (cross, _) => some (c, load, cross)

/-- Train record, `train_t` in mts.c (without the pthread handle and
condition variable, which belong to the concurrency model). -/
structure train_t : Type where
  id : Nat
  dir : direction_t
  high_priority : Bool
  loading_time : Int
  crossing_time : Int
  ready_time_ns : Int
  my_turn : Bool
deriving DecidableEq

/-- Embedding of `parse_line(line, id, t)`: scanf must convert all three
fields, the durations must lie in 1..99, and the direction character must
be one of e/E/w/W (lowercase = low priority, uppercase = high priority).
`none` models the C return value -1. -/
def parse_line (line : List Char) (id : Nat) : Option train_t :=
  match scanLine line with
  | none => none
  | some (c, load, cross) =>
      if load < 1 ∨ load > 99 ∨ cross < 1 ∨ cross > 99 then none
      else if c = 'e' then some ⟨id, direction_t.EAST, false, load, cross, -1, false⟩
      else if c = 'E' then some ⟨id, direction_t.EAST, true,  load, cross, -1, false⟩
      else if c = 'w' then some ⟨id, direction_t.WEST, false, load, cross, -1, false⟩
      else if c = 'W' then some ⟨id, direction_t.WEST, true,  load, cross, -1, false⟩
      else none

/-- Blank-line test of the counting pass of `load_trains`: skip spaces and
tabs; a line is blank when what remains is empty or starts with a newline.
Input lines are modelled newline-stripped, so the newline branch is the
degenerate case. -/
def isBlankLine : List Char → Bool
  | [] => true
  | c :: cs => if c.toNat = 32 || c.toNat = 9 then isBlankLine cs else c.toNat = 10

/-- Parsing pass of `load_trains`: parse the given lines in order with ids
id, id+1, ...; on the first failure return the 1-based line number and the
offending line (the C code prints "Parse error on line %d" with id+1 and
returns -1). -/
def parse_all (lines : List (List Char)) (id : Nat) : Except (Nat × List Char) (List train_t) :=
  match lines with
  | [] => Except.ok []
  | l :: ls =>
      match parse_line l id with
      | none => Except.error (id + 1, l)
      | some t =>
          match parse_all ls (id + 1) with
          | Except.error e => Except.error e
          | Except.ok ts => Except.ok (t :: ts)

/-- Embedding of `load_trains(path)` on the file's lines: count the
non-blank lines; zero means success with no trains; otherwise re-read the
file from the start and parse its first `count` lines.  An error result
models the C return value -1 (after which main exits non-zero). -/
def load_trains (lines : List (List Char)) : Except (Nat × List Char) (List train_t) :=
  let count := (lines.filter (fun l => !isBlankLine l)).length
  if count = 0 then Except.ok []
  else parse_all (lines.take count) 0

/-- Exit code of `main` as a function of the roster file: 1 when
`load_trains` fails, 0 on the normal path. -/
def main_exit (lines : List (List Char)) : Nat :=
  match load_trains lines with
  | Except.error _ => 1
  | Except.ok _ => 0

/-- Number of train worker threads `main` creates: zero when loading fails
(main returns before any `pthread_create`), one per parsed train otherwise. -/
def workers_spawned (lines : List (List Char)) : Nat :=
  match load_trains lines with
  | Except.error _ => 0
  | Except.ok ts => ts.length

/-- Well-formedness of one roster line as the spec states it: scanf finds a
direction character and two numbers, the character is a recognized
direction code, and both durations lie in [1,99]. -/
def lineWellFormed (l : List Char) : Prop :=
  ∃ c load cross, scanLine l = some (c, load, cross) ∧
    (c = 'e' ∨ c = 'E' ∨ c = 'w' ∨ c = 'W') ∧
    1 ≤ load ∧ load ≤ 99 ∧ 1 ≤ cross ∧ cross ≤ 99

/-- Lifecycle phase of one train thread.  `granted` is the window between
the dispatcher setting `my_turn`/signalling the train's condition variable
and the train logging ON; `crossing` is the timed crossing itself. -/
inductive Phase : Type
  | loading : Phase
  | waiting : Phase
  | granted : Phase
  | crossing : Phase
  | done : Phase
deriving DecidableEq

/-- Whole-system state: one phase per train index, the scheduler state, the
track flag and the finished counter of mts.c. -/
structure SysState : Type where
  phase : Nat → Phase
  sched : SchedState
  track_in_use : Bool
  trains_finished : Nat

/-- Scheduler state at program start (queues empty, nothing ever crossed,
`last_dir` arbitrarily EAST, streak 0). -/
def initialSched : SchedState :=
  { east_high := [], east_low := [], west_high := [], west_low := [],
    have_ever_crossed := false, last_dir := direction_t.EAST, same_dir_streak := 0 }

/-- Enqueue step of `train_thread`: push onto the queue matching the
train's direction and priority. -/
def enqueue (s : SchedState) (d : direction_t) (hp : Bool) (i : Nat) (ns : Int) : SchedState :=
  match d, hp with
  | direction_t.EAST, true  => { s with east_high := queue_push s.east_high i ns }
  | direction_t.EAST, false => { s with east_low  := queue_push s.east_low  i ns }
  | direction_t.WEST, true  => { s with west_high := queue_push s.west_high i ns }
  | direction_t.WEST, false => { s with west_low  := queue_push s.west_low  i ns }

/-- Initial system state for a roster (directions and priorities of the
validated trains): every train loading, track free, nothing finished. -/
def initSys (_roster : List (direction_t × Bool)) : SysState :=
  { phase := fun _ => Phase.loading,
    sched := initialSched,
    track_in_use := false,
    trains_finished := 0 }

/-- One atomic step of the concurrent program.  Each constructor is one
lock-held critical section of mts.c; the interleaving of threads and the
moment a train becomes ready (its stamped `ready_ns`) are unconstrained. -/
inductive Step (roster : List (direction_t × Bool)) : SysState → SysState → Prop
  | becomeReady (s : SysState) (i : Nat) (ns : Int) (d : direction_t) (hp : Bool) :
      s.phase i = Phase.loading →
      roster.get? i = some (d, hp) →
      Step roster s
        { s with phase := Function.update s.phase i Phase.waiting,
                 sched := enqueue s.sched d hp i ns }
  | dispatch (s : SysState) (i : Nat) (d : direction_t) (sch' : SchedState) :
      s.track_in_use = false →
      choose_next_idx_full s.sched = some (i, d, sch') →
      Step roster s
        { s with sched := sch',
                 track_in_use := true,
                 phase := Function.update s.phase i Phase.granted }
  | enterTrack (s : SysState) (i : Nat) :
      s.phase i = Phase.granted →
      Step roster s { s with phase := Function.update s.phase i Phase.crossing }
  | finishCross (s : SysState) (i : Nat) (d : direction_t) (hp : Bool) :
      s.phase i = Phase.crossing →
      roster.get? i = some (d, hp) →
      Step roster s
        { s with phase := Function.update s.phase i Phase.done,
                 track_in_use := false,
                 trains_finished := s.trains_finished + 1,
                 sched := finish_update d s.sched }

/-- States reachable by the concurrent program on a given roster. -/
inductive Reach (roster : List (direction_t × Bool)) : SysState → Prop
  | init : Reach roster (initSys roster)
  | step {s s' : SysState} : Reach roster s → Step roster s s' → Reach roster s'

/-- A train holds the track: it has been granted the track and has not yet
released it. -/
def isHolder (s : SysState) (i : Nat) : Prop :=
  s.phase i = Phase.granted ∨ s.phase i = Phase.crossing

instance (s : SysState) (i : Nat) : Decidable (isHolder s i) := by
  unfold isHolder; infer_instance

/-- Number of trains of the roster currently holding the track. -/
def holderCount (n : Nat) (s : SysState) : Nat :=
  ((Finset.range n).filter (fun i => isHolder s i)).card

/-- Number of trains of the roster currently in the Crossing state. -/
def crossingCount (n : Nat) (s : SysState) : Nat :=
  ((Finset.range n).filter (fun i => s.phase i = Phase.crossing)).card

/-- Non-strict form of the queue order: a may sit before b, i.e. b does not
strictly come before a. -/
def qLe (a b : QNode) : Prop := ready_comes_before b.1 b.2 a.1 a.2 = false

/-- A ready queue is sorted when consecutive nodes are in `qLe` order, i.e.
ascending by (ready_ns, id). -/
def QSorted (q : List QNode) : Prop := q.Pairwise qLe

instance : DecidableRel qLe := by
  unfold qLe; infer_instance

instance (q : List QNode) : Decidable (QSorted q) := by
  unfold QSorted; infer_instance

theorem ready_comes_before_iff (idxA : Nat) (nsA : Int) (idxB : Nat) (nsB : Int) :
    ready_comes_before idxA nsA idxB nsB = true ↔
      (nsA < nsB ∨ (nsA = nsB ∧ idxA < idxB)) := by
  unfold ready_comes_before
  split_ifs with h1 h2 <;> simp <;> omega

theorem ready_comes_before_false_iff (idxA : Nat) (nsA : Int) (idxB : Nat) (nsB : Int) :
    ready_comes_before idxA nsA idxB nsB = false ↔
      ¬ (nsA < nsB ∨ (nsA = nsB ∧ idxA < idxB)) := by
  rw [← ready_comes_before_iff]
  cases ready_comes_before idxA nsA idxB nsB <;> simp

theorem rcb_irrefl (a : QNode) : ready_comes_before a.1 a.2 a.1 a.2 = false := by
  rw [ready_comes_before_false_iff]; omega

theorem rcb_asymm {a b : QNode} (h : ready_comes_before a.1 a.2 b.1 b.2 = true) :
    ready_comes_before b.1 b.2 a.1 a.2 = false := by
  rw [ready_comes_before_iff] at h
  rw [ready_comes_before_false_iff]
  omega

theorem qLe_trans {a b c : QNode} (h1 : qLe a b) (h2 : qLe b c) : qLe a c := by
  unfold qLe at *
  rw [ready_comes_before_false_iff] at *
  omega

theorem qLe_of_rcb {a b : QNode} (h : ready_comes_before a.1 a.2 b.1 b.2 = true) :
    qLe a b := rcb_asymm h

theorem qLe_refl (a : QNode) : qLe a a := rcb_irrefl a

/-- The nodes of a pushed queue are exactly the old nodes plus the new one. -/
theorem queue_push_perm (q : List QNode) (i : Nat) (ns : Int) :
    (queue_push q i ns).Perm ((i, ns) :: q) := by
  induction q with
  | nil => simp [queue_push]
  | cons c rest ih =>
      unfold queue_push
      split
      · exact List.Perm.refl _
      · exact (ih.cons c).trans (List.Perm.swap (i, ns) c rest)

theorem queue_push_mem {q : List QNode} {x : QNode} {i : Nat} {ns : Int}
    (h : x ∈ queue_push q i ns) : x = (i, ns) ∨ x ∈ q := by
  have := (queue_push_perm q i ns).mem_iff.mp h
  simpa using this

/-- Pushing preserves sortedness: `queue_push` is ordered insertion. -/
theorem queue_push_sorted (q : List QNode) (i : Nat) (ns : Int) (h : QSorted q) :
    QSorted (queue_push q i ns) := by
  induction q with
  | nil => simp [queue_push, QSorted]
  | cons c rest ih =>
      rw [QSorted, List.pairwise_cons] at h
      obtain ⟨hc, hrest⟩ := h
      unfold queue_push
      split
      · rename_i hlt
        rw [QSorted, List.pairwise_cons]
        constructor
        · intro x hx
          rcases List.mem_cons.mp hx with rfl | hx
          · exact qLe_of_rcb hlt
          · exact qLe_trans (qLe_of_rcb hlt) (hc x hx)
        · exact List.pairwise_cons.mpr ⟨hc, hrest⟩
      · rename_i hge
        rw [QSorted, List.pairwise_cons]
        constructor
        · intro x hx
          rcases queue_push_mem hx with rfl | hx
          · unfold qLe
            simpa using hge
          · exact hc x hx
        · exact ih hrest

theorem queue_pop_nil : queue_pop [] = none := rfl

theorem queue_pop_eq_none_iff (q : List QNode) : queue_pop q = none ↔ q = [] := by
  cases q <;> simp [queue_pop]

/-- On a sorted queue, `queue_pop` removes and returns the minimal element. -/
theorem queue_pop_min {q : List QNode} {i : Nat} {rest : List QNode}
    (hs : QSorted q) (hp : queue_pop q = some (i, rest)) :
    ∃ ns, q = (i, ns) :: rest ∧ ∀ x ∈ q, qLe (i, ns) x := by
  cases q with
  | nil => cases hp
  | cons c t =>
      simp only [queue_pop, Option.some.injEq, Prod.mk.injEq] at hp
      obtain ⟨rfl, rfl⟩ := hp
      rw [QSorted, List.pairwise_cons] at hs
      refine ⟨c.2, by simp, ?_⟩
      intro x hx
      rcases List.mem_cons.mp hx with rfl | hx
      · simpa using qLe_refl x
      · simpa using hs.1 x hx

/-- Shape of a successful `choose_from_pair`: the index popped is the head
of A (when the boolean is true) or of B (when false); the other queue is
returned unchanged. -/
theorem choose_from_pair_shape {A B : List QNode} {tk : Bool} {i : Nat} {A' B' : List QNode}
    (h : choose_from_pair A B = some (tk, i, A', B')) :
    (tk = true ∧ ∃ ns, A = (i, ns) :: A' ∧ B' = B) ∨
    (tk = false ∧ ∃ ns, B = (i, ns) :: B' ∧ A' = A) := by
  unfold choose_from_pair at h
  split at h
  · rename_i a ra b rb
    split at h
    · simp only [Option.some.injEq, Prod.mk.injEq] at h
      obtain ⟨rfl, rfl, rfl, rfl⟩ := h
      exact Or.inl ⟨rfl, a.2, by simp, rfl⟩
    · simp only [Option.some.injEq, Prod.mk.injEq] at h
      obtain ⟨rfl, rfl, rfl, rfl⟩ := h
      exact Or.inr ⟨rfl, b.2, by simp, rfl⟩
  · rename_i a ra
    simp only [Option.some.injEq, Prod.mk.injEq] at h
    obtain ⟨rfl, rfl, rfl, rfl⟩ := h
    exact Or.inl ⟨rfl, a.2, by simp, rfl⟩
  · rename_i b rb
    simp only [Option.some.injEq, Prod.mk.injEq] at h
    obtain ⟨rfl, rfl, rfl, rfl⟩ := h
    exact Or.inr ⟨rfl, b.2, by simp, rfl⟩
  · exact Option.noConfusion h

/-- A successful selection pops the head of exactly one of the four queues
and leaves the other three queues and all counters untouched. -/
def PopsHead (s s' : SchedState) (i : Nat) : Prop :=
  s'.have_ever_crossed = s.have_ever_crossed ∧
  s'.last_dir = s.last_dir ∧
  s'.same_dir_streak = s.same_dir_streak ∧
  ∃ ns,
    (s.east_high = (i, ns) :: s'.east_high ∧ s'.east_low = s.east_low ∧
       s'.west_high = s.west_high ∧ s'.west_low = s.west_low) ∨
    (s.east_low = (i, ns) :: s'.east_low ∧ s'.east_high = s.east_high ∧
       s'.west_high = s.west_high ∧ s'.west_low = s.west_low) ∨
    (s.west_high = (i, ns) :: s'.west_high ∧ s'.east_high = s.east_high ∧
       s'.east_low = s.east_low ∧ s'.west_low = s.west_low) ∨
    (s.west_low = (i, ns) :: s'.west_low ∧ s'.east_high = s.east_high ∧
       s'.east_low = s.east_low ∧ s'.west_high = s.west_high)

theorem choose_normal_popsHead {s : SchedState} {i : Nat} {d : direction_t} {s' : SchedState}
    (h : choose_normal s = some (i, d, s')) : PopsHead s s' i := by
  unfold choose_normal at h
  split at h
  · split at h
    · rename_i heq
      simp only [Option.some.injEq, Prod.mk.injEq] at h
      obtain ⟨rfl, rfl, rfl⟩ := h
      rcases choose_from_pair_shape heq with ⟨_, ns, hA, hB⟩ | ⟨hf, _⟩
      · exact ⟨rfl, rfl, rfl, ns, Or.inl ⟨by simpa [hB] using hA, rfl, by simp [hB], rfl⟩⟩
      · cases hf
    · rename_i heq
      simp only [Option.some.injEq, Prod.mk.injEq] at h
      obtain ⟨rfl, rfl, rfl⟩ := h
      rcases choose_from_pair_shape heq with ⟨ht, _⟩ | ⟨_, ns, hB, hA⟩
      · cases ht
      · exact ⟨rfl, rfl, rfl, ns, Or.inr (Or.inr (Or.inl ⟨by simpa [hA] using hB, by simp [hA], rfl, rfl⟩))⟩
    · exact Option.noConfusion h
  · split at h
    · split at h
      · rename_i heq
        simp only [Option.some.injEq, Prod.mk.injEq] at h
        obtain ⟨rfl, rfl, rfl⟩ := h
        rcases choose_from_pair_shape heq with ⟨_, ns, hA, hB⟩ | ⟨hf, _⟩
        · exact ⟨rfl, rfl, rfl, ns, Or.inr (Or.inl ⟨by simpa [hB] using hA, rfl, rfl, by simp [hB]⟩)⟩
        · cases hf
      · rename_i heq
        simp only [Option.some.injEq, Prod.mk.injEq] at h
        obtain ⟨rfl, rfl, rfl⟩ := h
        rcases choose_from_pair_shape heq with ⟨ht, _⟩ | ⟨_, ns, hB, hA⟩
        · cases ht
        · exact ⟨rfl, rfl, rfl, ns, Or.inr (Or.inr (Or.inr ⟨by simpa [hA] using hB, rfl, by simp [hA], rfl⟩))⟩
      · exact Option.noConfusion h
    · exact Option.noConfusion h


theorem choose_balanced_popsHead {s : SchedState} {i : Nat} {d : direction_t} {s' : SchedState}
    (h : choose_balanced s = some (i, d, s')) : PopsHead s s' i := by
  by_cases hstreak : 2 ≤ s.same_dir_streak
  · simp only [choose_balanced] at h
    rw [if_pos hstreak] at h
    cases hld : s.last_dir with
    | EAST =>
        rw [hld] at h
        cases hwh : s.west_high with
        | cons n r =>
            rw [hwh] at h
            simp only [Option.some.injEq, Prod.mk.injEq] at h
            obtain ⟨rfl, rfl, rfl⟩ := h
            exact ⟨rfl, hld.symm, rfl, n.2, Or.inr (Or.inr (Or.inl ⟨by simp [hwh], rfl, rfl, rfl⟩))⟩
        | nil =>
            rw [hwh] at h
            cases hwl : s.west_low with
            | cons n r =>
                rw [hwl] at h
                simp only [Option.some.injEq, Prod.mk.injEq] at h
                obtain ⟨rfl, rfl, rfl⟩ := h
                exact ⟨rfl, hld.symm, rfl, n.2,
                  Or.inr (Or.inr (Or.inr ⟨by simp [hwl], rfl, rfl, hwh.symm⟩))⟩
            | nil =>
                rw [hwl] at h
                exact choose_normal_popsHead h
    | WEST =>
        rw [hld] at h
        cases heh : s.east_high with
        | cons n r =>
            rw [heh] at h
            simp only [Option.some.injEq, Prod.mk.injEq] at h
            obtain ⟨rfl, rfl, rfl⟩ := h
            exact ⟨rfl, hld.symm, rfl, n.2, Or.inl ⟨by simp [heh], rfl, rfl, rfl⟩⟩
        | nil =>
            rw [heh] at h
            cases hel : s.east_low with
            | cons n r =>
                rw [hel] at h
                simp only [Option.some.injEq, Prod.mk.injEq] at h
                obtain ⟨rfl, rfl, rfl⟩ := h
                exact ⟨rfl, hld.symm, rfl, n.2,
                  Or.inr (Or.inl ⟨by simp [hel], heh.symm, rfl, rfl⟩)⟩
            | nil =>
                rw [hel] at h
                exact choose_normal_popsHead h
  · simp only [choose_balanced] at h
    rw [if_neg hstreak] at h
    exact choose_normal_popsHead h

theorem choose_popsHead {s : SchedState} {i : Nat} {d : direction_t} {s' : SchedState}
    (h : choose_next_idx_full s = some (i, d, s')) : PopsHead s s' i := by
  cases hec : s.have_ever_crossed with
  | true =>
      simp only [choose_next_idx_full, hec] at h
      exact choose_balanced_popsHead h
  | false =>
      cases hwh : s.west_high with
      | cons n r =>
          simp only [choose_next_idx_full, hec, hwh] at h
          obtain ⟨rfl, rfl, rfl⟩ := h
          exact ⟨hec.symm, rfl, rfl, n.2, Or.inr (Or.inr (Or.inl ⟨by simp [hwh], rfl, rfl, rfl⟩))⟩
      | nil =>
          cases hwl : s.west_low with
          | cons n r =>
              simp only [choose_next_idx_full, hec, hwh, hwl] at h
              obtain ⟨rfl, rfl, rfl⟩ := h
              exact ⟨hec.symm, rfl, rfl, n.2,
                Or.inr (Or.inr (Or.inr ⟨by simp [hwl], rfl, rfl, hwh.symm⟩))⟩
          | nil =>
              simp only [choose_next_idx_full, hec, hwh, hwl] at h
              exact choose_balanced_popsHead h

theorem popsHead_ids {s s' : SchedState} {i : Nat} (h : PopsHead s s' i) :
    ∃ U V, queuedIds s = U ++ i :: V ∧ queuedIds s' = U ++ V := by
  obtain ⟨-, -, -, ns, hc⟩ := h
  rcases hc with ⟨h1, h2, h3, h4⟩ | ⟨h1, h2, h3, h4⟩ | ⟨h1, h2, h3, h4⟩ | ⟨h1, h2, h3, h4⟩
  · exact ⟨[], qIds s'.east_high ++ qIds s.east_low ++ qIds s.west_high ++ qIds s.west_low,
      by simp [queuedIds, qIds, h1], by simp [queuedIds, h2, h3, h4]⟩
  · exact ⟨qIds s.east_high, qIds s'.east_low ++ qIds s.west_high ++ qIds s.west_low,
      by simp [queuedIds, qIds, h1], by simp [queuedIds, h2, h3, h4]⟩
  · exact ⟨qIds s.east_high ++ qIds s.east_low, qIds s'.west_high ++ qIds s.west_low,
      by simp [queuedIds, qIds, h1], by simp [queuedIds, h2, h3, h4]⟩
  · exact ⟨qIds s.east_high ++ qIds s.east_low ++ qIds s.west_high, qIds s'.west_low,
      by simp [queuedIds, qIds, h1], by simp [queuedIds, h2, h3, h4]⟩

theorem popsHead_mem {s s' : SchedState} {i : Nat} (h : PopsHead s s' i) :
    i ∈ queuedIds s := by
  obtain ⟨U, V, h1, -⟩ := popsHead_ids h
  simp [h1]

theorem popsHead_totalReady {s s' : SchedState} {i : Nat} (h : PopsHead s s' i) :
    totalReady s = totalReady s' + 1 := by
  obtain ⟨U, V, h1, h2⟩ := popsHead_ids h
  simp only [totalReady, h1, h2, List.length_append, List.length_cons]
  omega

theorem popsHead_nodup {s s' : SchedState} {i : Nat} (h : PopsHead s s' i)
    (hnd : (queuedIds s).Nodup) : (queuedIds s').Nodup := by
  obtain ⟨U, V, h1, h2⟩ := popsHead_ids h
  rw [h2]
  rw [h1] at hnd
  exact hnd.sublist ((List.sublist_cons_self i V).append_left U)

theorem finish_update_queuedIds (d : direction_t) (s : SchedState) :
    queuedIds (finish_update d s) = queuedIds s := rfl

theorem finish_update_totalReady (d : direction_t) (s : SchedState) :
    totalReady (finish_update d s) = totalReady s := rfl

/-- Queue selector: the four ready queues indexed 0..3 in the order of
`queuedIds`. -/
def getQ (k : Fin 4) (s : SchedState) : List QNode :=
  match k with
  | 0 => s.east_high
  | 1 => s.east_low
  | 2 => s.west_high
  | 3 => s.west_low

theorem popsHead_getQ {s s' : SchedState} {i : Nat} (h : PopsHead s s' i) :
    ∃ k ns, getQ k s = (i, ns) :: getQ k s' ∧ ∀ m, m ≠ k → getQ m s' = getQ m s := by
  obtain ⟨-, -, -, ns, hc⟩ := h
  rcases hc with ⟨h1, h2, h3, h4⟩ | ⟨h1, h2, h3, h4⟩ | ⟨h1, h2, h3, h4⟩ | ⟨h1, h2, h3, h4⟩
  · exact ⟨0, ns, h1, by intro m hm; fin_cases m <;> simp_all [getQ]⟩
  · exact ⟨1, ns, h1, by intro m hm; fin_cases m <;> simp_all [getQ]⟩
  · exact ⟨2, ns, h1, by intro m hm; fin_cases m <;> simp_all [getQ]⟩
  · exact ⟨3, ns, h1, by intro m hm; fin_cases m <;> simp_all [getQ]⟩

theorem mem_queuedIds_of_getQ {s : SchedState} {k : Fin 4} {a : Nat}
    (h : a ∈ qIds (getQ k s)) : a ∈ queuedIds s := by
  fin_cases k <;> simp_all [getQ, queuedIds]

theorem nodup_getQ {s : SchedState} (hnd : (queuedIds s).Nodup) (k : Fin 4) :
    (qIds (getQ k s)).Nodup := by
  simp only [queuedIds, List.nodup_append] at hnd
  fin_cases k <;> simp [getQ] <;> tauto

theorem nodup_cross {s : SchedState} (hnd : (queuedIds s).Nodup) {k m : Fin 4} (hkm : k ≠ m)
    {a : Nat} (ha : a ∈ qIds (getQ k s)) (hb : a ∈ qIds (getQ m s)) : False := by
  simp only [queuedIds, List.nodup_append, List.disjoint_append_left] at hnd
  obtain ⟨⟨⟨na, nb, dab⟩, nc, dac, dbc⟩, nd, ⟨dad, dbd⟩, dcd⟩ := hnd
  fin_cases k <;> fin_cases m <;> simp only [getQ] at ha hb <;> first
    | exact absurd rfl hkm
    | exact dab ha hb
    | exact dab hb ha
    | exact dac ha hb
    | exact dac hb ha
    | exact dbc ha hb
    | exact dbc hb ha
    | exact dad ha hb
    | exact dad hb ha
    | exact dbd ha hb
    | exact dbd hb ha
    | exact dcd ha hb
    | exact dcd hb ha

theorem choose_from_pair_isSome {A B : List QNode} (h : A ≠ [] ∨ B ≠ []) :
    (choose_from_pair A B).isSome = true := by
  rcases A with _ | ⟨a, ra⟩ <;> rcases B with _ | ⟨b, rb⟩
  · simp at h
  · simp [choose_from_pair]
  · simp [choose_from_pair]
  · simp only [choose_from_pair]
    split <;> simp

theorem choose_normal_isSome_high {s : SchedState}
    (h : s.east_high ≠ [] ∨ s.west_high ≠ []) : (choose_normal s).isSome = true := by
  unfold choose_normal
  have hcond : (!s.east_high.isEmpty || !s.west_high.isEmpty) = true := by
    rcases h with h | h <;>
      obtain ⟨x, xs, hx⟩ := List.exists_cons_of_ne_nil h <;> simp [hx]
  rw [if_pos hcond]
  obtain ⟨⟨tk, i, A', B'⟩, hcfp⟩ := Option.isSome_iff_exists.mp (choose_from_pair_isSome h)
  rw [hcfp]
  cases tk <;> simp

theorem choose_normal_isSome_low {s : SchedState}
    (h1 : s.east_high = []) (h2 : s.west_high = [])
    (h : s.east_low ≠ [] ∨ s.west_low ≠ []) : (choose_normal s).isSome = true := by
  unfold choose_normal
  have hcond : ¬ ((!s.east_high.isEmpty || !s.west_high.isEmpty) = true) := by
    simp [h1, h2]
  rw [if_neg hcond]
  have hcond2 : (!s.east_low.isEmpty || !s.west_low.isEmpty) = true := by
    rcases h with h | h <;>
      obtain ⟨x, xs, hx⟩ := List.exists_cons_of_ne_nil h <;> simp [hx]
  rw [if_pos hcond2]
  obtain ⟨⟨tk, i, A', B'⟩, hcfp⟩ := Option.isSome_iff_exists.mp (choose_from_pair_isSome h)
  rw [hcfp]
  cases tk <;> simp

theorem choose_normal_isSome {s : SchedState}
    (h : s.east_high ≠ [] ∨ s.east_low ≠ [] ∨ s.west_high ≠ [] ∨ s.west_low ≠ []) :
    (choose_normal s).isSome = true := by
  by_cases hh : s.east_high = [] ∧ s.west_high = []
  · refine choose_normal_isSome_low hh.1 hh.2 ?_
    rcases h with h | h | h | h
    · exact absurd hh.1 h
    · exact Or.inl h
    · exact absurd hh.2 h
    · exact Or.inr h
  · refine choose_normal_isSome_high ?_
    tauto

theorem choose_balanced_isSome {s : SchedState}
    (h : s.east_high ≠ [] ∨ s.east_low ≠ [] ∨ s.west_high ≠ [] ∨ s.west_low ≠ []) :
    (choose_balanced s).isSome = true := by
  unfold choose_balanced
  by_cases hs : 2 ≤ s.same_dir_streak
  · rw [if_pos hs]
    cases hld : s.last_dir with
    | EAST =>
        cases hwh : s.west_high with
        | cons n r => simp
        | nil =>
            cases hwl : s.west_low with
            | cons n r => simp
            | nil =>
                simp only
                exact choose_normal_isSome h
    | WEST =>
        cases heh : s.east_high with
        | cons n r => simp
        | nil =>
            cases hel : s.east_low with
            | cons n r => simp
            | nil =>
                simp only
                exact choose_normal_isSome h
  · rw [if_neg hs]
    exact choose_normal_isSome h

theorem choose_isSome {s : SchedState}
    (h : s.east_high ≠ [] ∨ s.east_low ≠ [] ∨ s.west_high ≠ [] ∨ s.west_low ≠ []) :
    (choose_next_idx_full s).isSome = true := by
  cases hec : s.have_ever_crossed with
  | true =>
      simp only [choose_next_idx_full, hec]
      exact choose_balanced_isSome h
  | false =>
      cases hwh : s.west_high with
      | cons n r => simp [choose_next_idx_full, hec, hwh]
      | nil =>
          cases hwl : s.west_low with
          | cons n r => simp [choose_next_idx_full, hec, hwh, hwl]
          | nil =>
              simp only [choose_next_idx_full, hec, hwh, hwl]
              exact choose_balanced_isSome h

/-- The selection function returns the no-candidate marker exactly when all
four ready queues are empty. -/
theorem choose_none_iff (s : SchedState) :
    choose_next_idx_full s = none ↔
      (s.east_high = [] ∧ s.east_low = [] ∧ s.west_high = [] ∧ s.west_low = []) := by
  constructor
  · intro h
    by_contra hne
    have hd : s.east_high ≠ [] ∨ s.east_low ≠ [] ∨ s.west_high ≠ [] ∨ s.west_low ≠ [] := by
      tauto
    have := choose_isSome hd
    rw [h] at this
    simp at this
  · rintro ⟨h1, h2, h3, h4⟩
    cases hec : s.have_ever_crossed <;> by_cases hs : 2 ≤ s.same_dir_streak <;>
      cases hld : s.last_dir <;>
      simp [choose_next_idx_full, choose_balanced, choose_normal, h1, h2, h3, h4, hec, hs, hld]

theorem getQ_finish_update (k : Fin 4) (d : direction_t) (s : SchedState) :
    getQ k (finish_update d s) = getQ k s := by
  fin_cases k <;> rfl

theorem queues_ne_of_mem {s : SchedState} {i : Nat} (h : i ∈ queuedIds s) :
    s.east_high ≠ [] ∨ s.east_low ≠ [] ∨ s.west_high ≠ [] ∨ s.west_low ≠ [] := by
  simp only [queuedIds, List.mem_append] at h
  rcases h with ((h | h) | h) | h
  · exact Or.inl (by intro hn; rw [hn] at h; simp [qIds] at h)
  · exact Or.inr (Or.inl (by intro hn; rw [hn] at h; simp [qIds] at h))
  · exact Or.inr (Or.inr (Or.inl (by intro hn; rw [hn] at h; simp [qIds] at h)))
  · exact Or.inr (Or.inr (Or.inr (by intro hn; rw [hn] at h; simp [qIds] at h)))

/-- Drain property: a waiting train is dispatched within `totalReady` steps
of the (arrival-free) schedule. -/
theorem runSchedule_mem {fuel : Nat} {s : SchedState} {i : Nat}
    (hmem : i ∈ queuedIds s) (hfuel : totalReady s ≤ fuel) :
    i ∈ runSchedule fuel s := by
  induction fuel generalizing s with
  | zero =>
      have h1 : 0 < totalReady s := List.length_pos.mpr (List.ne_nil_of_mem hmem)
      omega
  | succ n ih =>
      have hne := queues_ne_of_mem hmem
      obtain ⟨⟨i0, d0, s0⟩, hch⟩ := Option.isSome_iff_exists.mp (choose_isSome hne)
      have hrun : runSchedule (n + 1) s = i0 :: runSchedule n (finish_update d0 s0) := by
        simp [runSchedule, hch]
      rw [hrun]
      have hpop := choose_popsHead hch
      obtain ⟨U, V, hids, hids'⟩ := popsHead_ids hpop
      by_cases hii : i = i0
      · subst hii
        exact List.mem_cons_self _ _
      · have hmem' : i ∈ queuedIds (finish_update d0 s0) := by
          rw [finish_update_queuedIds, hids']
          rw [hids] at hmem
          rcases List.mem_append.mp hmem with h | h
          · exact List.mem_append.mpr (Or.inl h)
          · rcases List.mem_cons.mp h with h | h
            · exact absurd h hii
            · exact List.mem_append.mpr (Or.inr h)
        have hfuel' : totalReady (finish_update d0 s0) ≤ n := by
          rw [finish_update_totalReady]
          have := popsHead_totalReady hpop
          omega
        exact List.mem_cons_of_mem _ (ih hmem' hfuel')

/-- Train index i sits (strictly) before train index j in queue q. -/
def idsBefore (q : List QNode) (i j : Nat) : Prop :=
  ∃ l1 l2 l3, qIds q = l1 ++ i :: l2 ++ j :: l3

/-- Train indices i and j wait in the same ready queue, i ahead of j. -/
def sameQueueBefore (s : SchedState) (i j : Nat) : Prop :=
  ∃ k : Fin 4, idsBefore (getQ k s) i j

/-- Queue-order preservation: if i sits ahead of j in the same ready queue
then the schedule dispatches i strictly before j. -/
theorem runSchedule_order {fuel : Nat} {s : SchedState} {i j : Nat}
    (hnd : (queuedIds s).Nodup) (hb : sameQueueBefore s i j)
    (hfuel : totalReady s ≤ fuel) :
    ∃ o1 o2, runSchedule fuel s = o1 ++ i :: o2 ∧ j ∈ o2 ∧ i ∉ o1 ∧ j ∉ o1 := by
  induction fuel generalizing s with
  | zero =>
      obtain ⟨k, l1, l2, l3, hk⟩ := hb
      have hmem : i ∈ queuedIds s :=
        mem_queuedIds_of_getQ (k := k) (by rw [hk]; simp)
      have : 0 < totalReady s := List.length_pos.mpr (List.ne_nil_of_mem hmem)
      omega
  | succ n ih =>
      obtain ⟨k, l1, l2, l3, hk⟩ := hb
      have hmemi : i ∈ qIds (getQ k s) := by rw [hk]; simp
      have hmemj : j ∈ qIds (getQ k s) := by rw [hk]; simp
      have hne := queues_ne_of_mem (mem_queuedIds_of_getQ hmemi)
      obtain ⟨⟨i0, d0, s0⟩, hch⟩ := Option.isSome_iff_exists.mp (choose_isSome hne)
      have hrun : runSchedule (n + 1) s = i0 :: runSchedule n (finish_update d0 s0) := by
        simp [runSchedule, hch]
      have hpop := choose_popsHead hch
      have hnd0 : (queuedIds (finish_update d0 s0)).Nodup := by
        rw [finish_update_queuedIds]
        exact popsHead_nodup hpop hnd
      have hfuel0 : totalReady (finish_update d0 s0) ≤ n := by
        rw [finish_update_totalReady]
        have := popsHead_totalReady hpop
        omega
      obtain ⟨k0, ns0, hk0, hothers⟩ := popsHead_getQ hpop
      by_cases hkk : k0 = k
      · subst hkk
        have hq : i0 :: qIds (getQ k0 s0) = l1 ++ i :: l2 ++ j :: l3 := by
          rw [← hk, hk0]
          simp [qIds]
        cases l1 with
        | nil =>
            rw [List.nil_append] at hq
            injection hq with h1 hq2
            subst h1
            refine ⟨[], runSchedule n (finish_update d0 s0), by simpa using hrun, ?_,
              by simp, by simp⟩
            apply runSchedule_mem ?_ hfuel0
            rw [finish_update_queuedIds]
            apply mem_queuedIds_of_getQ (k := k0)
            rw [hq2]
            simp
        | cons x l1' =>
            rw [List.cons_append] at hq
            injection hq with h1 hq2
            subst h1
            have hndk : (qIds (getQ k0 s)).Nodup := nodup_getQ hnd k0
            rw [hk] at hndk
            have hx : i0 ∉ l1' ++ i :: l2 ++ j :: l3 := by
              simp only [List.cons_append, List.nodup_cons] at hndk
              exact hndk.1
            have hxi : i ≠ i0 := by
              intro hcon
              exact hx (by rw [← hcon] at hx ⊢; simp)
            have hxj : j ≠ i0 := by
              intro hcon
              exact hx (by rw [← hcon] at hx ⊢; simp)
            have hb' : sameQueueBefore (finish_update d0 s0) i j :=
              ⟨k0, l1', l2, l3, by rw [getQ_finish_update]; exact hq2⟩
            obtain ⟨o1, o2, ho, hj, hio, hjo⟩ := ih hnd0 hb' hfuel0
            refine ⟨i0 :: o1, o2, by rw [hrun, ho]; simp, hj, ?_, ?_⟩
            · intro hcon
              rcases List.mem_cons.mp hcon with h | h
              · exact hxi h
              · exact hio h
            · intro hcon
              rcases List.mem_cons.mp hcon with h | h
              · exact hxj h
              · exact hjo h
      · have hkm : k ≠ k0 := fun h => hkk h.symm
        have hq' : getQ k (finish_update d0 s0) = getQ k s := by
          rw [getQ_finish_update]
          exact hothers k hkm
        have hb' : sameQueueBefore (finish_update d0 s0) i j :=
          ⟨k, l1, l2, l3, by rw [hq']; exact hk⟩
        have hi0 : i0 ∈ qIds (getQ k0 s) := by rw [hk0]; simp [qIds]
        have hii0 : i ≠ i0 := by
          intro hcon
          exact nodup_cross hnd hkm hmemi (by rw [hcon]; exact hi0)
        have hji0 : j ≠ i0 := by
          intro hcon
          exact nodup_cross hnd hkm hmemj (by rw [hcon]; exact hi0)
        obtain ⟨o1, o2, ho, hj, hio, hjo⟩ := ih hnd0 hb' hfuel0
        refine ⟨i0 :: o1, o2, by rw [hrun, ho]; simp, hj, ?_, ?_⟩
        · intro hcon
          rcases List.mem_cons.mp hcon with h | h
          · exact hii0 h
          · exact hio h
        · intro hcon
          rcases List.mem_cons.mp hcon with h | h
          · exact hji0 h
          · exact hjo h

/-- Scheduler state after a sequence of completed crossings with the given
directions, each applying the Done bookkeeping of `train_thread`. -/
def applyFinishes (s : SchedState) (ds : List direction_t) : SchedState :=
  ds.foldl (fun st d => finish_update d st) s

/-- Length of the maximal constant suffix of a crossing history: the number
of consecutive completed crossings sharing the most recent direction. -/
def trailingRun (ds : List direction_t) : Nat :=
  match ds.reverse with
  | [] => 0
  | d :: rest => (rest.takeWhile (fun x => decide (x = d))).length + 1

theorem applyFinishes_concat (s : SchedState) (ds : List direction_t) (d : direction_t) :
    applyFinishes s (ds ++ [d]) = finish_update d (applyFinishes s ds) := by
  simp [applyFinishes]

theorem streak_counts_suffix (s0 : SchedState) (h0 : s0.same_dir_streak = 0) :
    ∀ ds : List direction_t, ds ≠ [] →
      (applyFinishes s0 ds).have_ever_crossed = true ∧
      some (applyFinishes s0 ds).last_dir = ds.reverse.head? ∧
      (applyFinishes s0 ds).same_dir_streak = trailingRun ds := by
  intro ds
  induction ds using List.reverseRecOn with
  | nil => intro h; exact absurd rfl h
  | append_singleton l d ih =>
      intro _
      rw [applyFinishes_concat]
      rcases eq_or_ne l [] with rfl | hl
      · refine ⟨rfl, ?_, ?_⟩
        · simp only [applyFinishes, List.foldl_nil, finish_update, List.nil_append,
            List.reverse_cons, List.reverse_nil, List.head?_cons]
          split_ifs with hd
          · rw [hd]
          · rfl
        · simp only [applyFinishes, List.foldl_nil, finish_update, trailingRun,
            List.nil_append, List.reverse_cons, List.reverse_nil, List.takeWhile_nil,
            List.length_nil]
          split_ifs with hd
          · rw [h0]
          · rfl
      · obtain ⟨hec, hlast, hstreak⟩ := ih hl
        obtain ⟨x, t, hrev⟩ : ∃ x t, l.reverse = x :: t := by
          cases hr : l.reverse with
          | nil => exact absurd (by simpa using congrArg List.reverse hr) hl
          | cons a b => exact ⟨a, b, rfl⟩
        rw [hrev] at hlast
        simp only [List.head?_cons, Option.some.injEq] at hlast
        have hrev2 : (l ++ [d]).reverse = d :: x :: t := by simp [hrev]
        refine ⟨rfl, ?_, ?_⟩
        · rw [hrev2]
          simp only [finish_update, List.head?_cons, Option.some.injEq]
          split_ifs with hd
          · exact hd.symm
          · rfl
        · simp only [finish_update]
          split_ifs with hd
          · -- same direction: streak increments, trailing run extends
            have hxd : x = d := (hd.trans hlast).symm
            rw [hstreak]
            simp only [trailingRun, hrev2, hrev, hxd]
            simp [List.takeWhile]
          · -- direction change: streak resets to 1, trailing run restarts
            have hxd : ¬ (x = d) := by
              intro hcon
              exact hd (by rw [hlast, hcon])
            simp only [trailingRun, hrev2]
            rw [List.takeWhile_cons]
            simp [hxd]

theorem qIds_push_perm (q : List QNode) (i : Nat) (ns : Int) :
    (qIds (queue_push q i ns)).Perm (i :: qIds q) := by
  simpa [qIds] using (queue_push_perm q i ns).map Prod.fst

theorem enqueue_perm (s : SchedState) (d : direction_t) (hp : Bool) (i : Nat) (ns : Int) :
    (queuedIds (enqueue s d hp i ns)).Perm (i :: queuedIds s) := by
  cases d <;> cases hp
  · -- EAST low
    exact ((((qIds_push_perm s.east_low i ns).append_left
        (qIds s.east_high)).append_right _).append_right _).trans
      ((List.perm_middle.append_right _).append_right _)
  · -- EAST high
    exact (((qIds_push_perm s.east_high i ns).append_right _).append_right _).append_right _
  · -- WEST low
    exact ((qIds_push_perm s.west_low i ns).append_left _).trans List.perm_middle
  · -- WEST high
    exact (((qIds_push_perm s.west_high i ns).append_left _).append_right _).trans
      (List.perm_middle.append_right _)

/-- System invariant: every queued index is a waiting in-roster train and
appears only once; the track flag counts the granted-or-crossing trains
(zero when free, exactly one when busy); out-of-roster indices never leave
the Loading phase. -/
def SysInv (n : Nat) (st : SysState) : Prop :=
  ((queuedIds st.sched).Nodup ∧
    ∀ i ∈ queuedIds st.sched, i < n ∧ st.phase i = Phase.waiting) ∧
  ((st.track_in_use = false → ∀ i, ¬ isHolder st i) ∧
    (st.track_in_use = true →
      ∃ i, i < n ∧ isHolder st i ∧ ∀ j, isHolder st j → j = i)) ∧
  (∀ i, n ≤ i → st.phase i = Phase.loading)

theorem sysInv_init (roster : List (direction_t × Bool)) :
    SysInv roster.length (initSys roster) := by
  refine ⟨⟨?_, ?_⟩, ⟨?_, ?_⟩, ?_⟩
  · simp [initSys, initialSched, queuedIds, qIds]
  · intro i hi
    simp [initSys, initialSched, queuedIds, qIds] at hi
  · intro _ i
    simp [initSys, isHolder]
  · intro h
    simp [initSys] at h
  · intro i _
    rfl


theorem sysInv_becomeReady {roster : List (direction_t × Bool)} {st : SysState}
    {i : Nat} {ns : Int} {d : direction_t} {hp : Bool}
    (hph : st.phase i = Phase.loading) (hro : roster.get? i = some (d, hp))
    (hinv : SysInv roster.length st) :
    SysInv roster.length
      { st with phase := Function.update st.phase i Phase.waiting,
                sched := enqueue st.sched d hp i ns } := by
  obtain ⟨⟨hnd, hq⟩, ⟨htrF, htrT⟩, hbound⟩ := hinv
  have hlt : i < roster.length := by
    rcases List.get?_eq_some.mp hro with ⟨h, -⟩
    exact h
  have hni : i ∉ queuedIds st.sched := by
    intro hmem
    have h2 := (hq i hmem).2
    rw [hph] at h2
    exact Phase.noConfusion h2
  have hperm := enqueue_perm st.sched d hp i ns
  refine ⟨⟨?_, ?_⟩, ⟨?_, ?_⟩, ?_⟩
  · show (queuedIds (enqueue st.sched d hp i ns)).Nodup
    exact hperm.nodup_iff.mpr (List.nodup_cons.mpr ⟨hni, hnd⟩)
  · show ∀ j ∈ queuedIds (enqueue st.sched d hp i ns),
      j < roster.length ∧ Function.update st.phase i Phase.waiting j = Phase.waiting
    intro j hj
    rcases List.mem_cons.mp (hperm.mem_iff.mp hj) with rfl | hj'
    · exact ⟨hlt, by rw [Function.update_same]⟩
    · obtain ⟨hlt2, hw2⟩ := hq j hj'
      have hji : j ≠ i := fun h => hni (h ▸ hj')
      exact ⟨hlt2, by rw [Function.update_noteq hji]; exact hw2⟩
  · intro htr j hj
    have hj' : Function.update st.phase i Phase.waiting j = Phase.granted ∨
               Function.update st.phase i Phase.waiting j = Phase.crossing := hj
    by_cases hji : j = i
    · subst hji
      rw [Function.update_same] at hj'
      rcases hj' with hh | hh <;> exact Phase.noConfusion hh
    · rw [Function.update_noteq hji] at hj'
      exact htrF htr j hj'
  · intro htr'
    have htr : st.track_in_use = true := htr'
    obtain ⟨i0, hlt0, hh0, huniq⟩ := htrT htr
    have hi0i : i0 ≠ i := by
      intro h
      subst h
      rcases hh0 with hh | hh <;> rw [hph] at hh <;> exact Phase.noConfusion hh
    refine ⟨i0, hlt0, ?_, ?_⟩
    · show Function.update st.phase i Phase.waiting i0 = Phase.granted ∨
           Function.update st.phase i Phase.waiting i0 = Phase.crossing
      rw [Function.update_noteq hi0i]
      exact hh0
    · intro j hj
      have hj' : Function.update st.phase i Phase.waiting j = Phase.granted ∨
                 Function.update st.phase i Phase.waiting j = Phase.crossing := hj
      by_cases hji : j = i
      · subst hji
        rw [Function.update_same] at hj'
        rcases hj' with hh | hh <;> exact Phase.noConfusion hh
      · rw [Function.update_noteq hji] at hj'
        exact huniq j hj'
  · intro j hj
    show Function.update st.phase i Phase.waiting j = Phase.loading
    have hji : j ≠ i := by omega
    rw [Function.update_noteq hji]
    exact hbound j hj

theorem sysInv_dispatch {roster : List (direction_t × Bool)} {st : SysState}
    {i : Nat} {d : direction_t} {sch' : SchedState}
    (htr : st.track_in_use = false)
    (hch : choose_next_idx_full st.sched = some (i, d, sch'))
    (hinv : SysInv roster.length st) :
    SysInv roster.length
      { st with sched := sch', track_in_use := true,
                phase := Function.update st.phase i Phase.granted } := by
  obtain ⟨⟨hnd, hq⟩, ⟨htrF, htrT⟩, hbound⟩ := hinv
  have hpop := choose_popsHead hch
  have hmem := popsHead_mem hpop
  obtain ⟨hlt, hwait⟩ := hq i hmem
  obtain ⟨U, V, hids, hids'⟩ := popsHead_ids hpop
  have hiUV : i ∉ U ++ V := by
    rw [hids] at hnd
    rcases List.nodup_append.mp hnd with ⟨-, hiV, hdisj⟩
    intro hmm
    rcases List.mem_append.mp hmm with h | h
    · exact hdisj h (List.mem_cons_self i V)
    · exact (List.nodup_cons.mp hiV).1 h
  refine ⟨⟨?_, ?_⟩, ⟨?_, ?_⟩, ?_⟩
  · show (queuedIds sch').Nodup
    have hnd' := hnd
    rw [hids] at hnd'
    rw [hids']
    exact hnd'.sublist ((List.sublist_cons_self i V).append_left U)
  · show ∀ j ∈ queuedIds sch',
      j < roster.length ∧ Function.update st.phase i Phase.granted j = Phase.waiting
    intro j hj
    have hjmem : j ∈ queuedIds st.sched := by
      rw [hids]
      rw [hids'] at hj
      rcases List.mem_append.mp hj with h | h
      · exact List.mem_append.mpr (Or.inl h)
      · exact List.mem_append.mpr (Or.inr (List.mem_cons_of_mem _ h))
    obtain ⟨hlt2, hw2⟩ := hq j hjmem
    have hji : j ≠ i := by
      intro h
      subst h
      rw [hids'] at hj
      exact hiUV hj
    exact ⟨hlt2, by rw [Function.update_noteq hji]; exact hw2⟩
  · intro htr'
    exact absurd (show (true : Bool) = false from htr') (by simp)
  · intro _
    refine ⟨i, hlt,
      Or.inl (show Function.update st.phase i Phase.granted i = Phase.granted by
        rw [Function.update_same]), ?_⟩
    intro j hj
    have hj' : Function.update st.phase i Phase.granted j = Phase.granted ∨
               Function.update st.phase i Phase.granted j = Phase.crossing := hj
    by_cases hji : j = i
    · exact hji
    · rw [Function.update_noteq hji] at hj'
      exact absurd hj' (htrF htr j)
  · intro j hj
    show Function.update st.phase i Phase.granted j = Phase.loading
    have hji : j ≠ i := by omega
    rw [Function.update_noteq hji]
    exact hbound j hj

theorem sysInv_enterTrack {roster : List (direction_t × Bool)} {st : SysState} {i : Nat}
    (hph : st.phase i = Phase.granted)
    (hinv : SysInv roster.length st) :
    SysInv roster.length { st with phase := Function.update st.phase i Phase.crossing } := by
  obtain ⟨⟨hnd, hq⟩, ⟨htrF, htrT⟩, hbound⟩ := hinv
  have hlt : i < roster.length := by
    by_contra hge
    have h2 := hbound i (by omega)
    rw [hph] at h2
    exact Phase.noConfusion h2
  refine ⟨⟨hnd, ?_⟩, ⟨?_, ?_⟩, ?_⟩
  · show ∀ j ∈ queuedIds st.sched,
      j < roster.length ∧ Function.update st.phase i Phase.crossing j = Phase.waiting
    intro j hj
    obtain ⟨hlt2, hw2⟩ := hq j hj
    have hji : j ≠ i := by
      intro h
      subst h
      rw [hph] at hw2
      exact Phase.noConfusion hw2
    exact ⟨hlt2, by rw [Function.update_noteq hji]; exact hw2⟩
  · intro htr j hj
    exact htrF htr i (Or.inl hph)
  · intro htr'
    have htr : st.track_in_use = true := htr'
    obtain ⟨i0, hlt0, hh0, huniq⟩ := htrT htr
    have heq := huniq i (Or.inl hph)
    subst heq
    refine ⟨i, hlt,
      Or.inr (show Function.update st.phase i Phase.crossing i = Phase.crossing by
        rw [Function.update_same]), ?_⟩
    intro j hj
    have hj' : Function.update st.phase i Phase.crossing j = Phase.granted ∨
               Function.update st.phase i Phase.crossing j = Phase.crossing := hj
    by_cases hji : j = i
    · exact hji
    · rw [Function.update_noteq hji] at hj'
      exact huniq j hj'
  · intro j hj
    have hji : j ≠ i := by omega
    show Function.update st.phase i Phase.crossing j = Phase.loading
    rw [Function.update_noteq hji]
    exact hbound j hj

theorem sysInv_finishCross {roster : List (direction_t × Bool)} {st : SysState}
    {i : Nat} {d : direction_t} {hp : Bool}
    (hph : st.phase i = Phase.crossing) (hro : roster.get? i = some (d, hp))
    (hinv : SysInv roster.length st) :
    SysInv roster.length
      { st with phase := Function.update st.phase i Phase.done,
                track_in_use := false,
                trains_finished := st.trains_finished + 1,
                sched := finish_update d st.sched } := by
  obtain ⟨⟨hnd, hq⟩, ⟨htrF, htrT⟩, hbound⟩ := hinv
  have htr : st.track_in_use = true := by
    cases h : st.track_in_use
    · exact absurd (Or.inr hph) (htrF h i)
    · rfl
  obtain ⟨i0, hlt0, hh0, huniq⟩ := htrT htr
  have heq := huniq i (Or.inr hph)
  refine ⟨⟨?_, ?_⟩, ⟨?_, ?_⟩, ?_⟩
  · show (queuedIds (finish_update d st.sched)).Nodup
    rw [finish_update_queuedIds]
    exact hnd
  · show ∀ j ∈ queuedIds (finish_update d st.sched),
      j < roster.length ∧ Function.update st.phase i Phase.done j = Phase.waiting
    intro j hj
    rw [finish_update_queuedIds] at hj
    obtain ⟨hlt2, hw2⟩ := hq j hj
    have hji : j ≠ i := by
      intro h
      subst h
      rw [hph] at hw2
      exact Phase.noConfusion hw2
    exact ⟨hlt2, by rw [Function.update_noteq hji]; exact hw2⟩
  · intro _ j hj
    have hj' : Function.update st.phase i Phase.done j = Phase.granted ∨
               Function.update st.phase i Phase.done j = Phase.crossing := hj
    by_cases hji : j = i
    · subst hji
      rw [Function.update_same] at hj'
      rcases hj' with hh | hh <;> exact Phase.noConfusion hh
    · rw [Function.update_noteq hji] at hj'
      exact hji ((huniq j hj').trans heq.symm)
  · intro htr'
    exact absurd (show (false : Bool) = true from htr') (by simp)
  · intro j hj
    have hilt : i < roster.length := by omega
    have hji : j ≠ i := by omega
    show Function.update st.phase i Phase.done j = Phase.loading
    rw [Function.update_noteq hji]
    exact hbound j hj

theorem sysInv_step {roster : List (direction_t × Bool)} {st st' : SysState}
    (hstep : Step roster st st') (hinv : SysInv roster.length st) :
    SysInv roster.length st' := by
  cases hstep with
  | becomeReady i ns d hp hph hro => exact sysInv_becomeReady hph hro hinv
  | dispatch i d sch' htr hch => exact sysInv_dispatch htr hch hinv
  | enterTrack i hph => exact sysInv_enterTrack hph hinv
  | finishCross i d hp hph hro => exact sysInv_finishCross hph hro hinv

theorem sysInv_reach {roster : List (direction_t × Bool)} {st : SysState}
    (h : Reach roster st) : SysInv roster.length st := by
  induction h with
  | init => exact sysInv_init roster
  | step hr hs ih => exact sysInv_step hs ih

/-- C1: At every instant of a run, at most one train is in the Crossing
state: the dispatcher never grants the track while track_in_use is set, so
in every reachable state of every roster under every interleaving, two
trains in Crossing phase are equal, track_in_use = true means exactly one
train holds the track (granted or crossing), and track_in_use = false means
no train holds it. -/
theorem mutual_exclusion (roster : List (direction_t × Bool)) (st : SysState)
    (h : Reach roster st) :
    (∀ i j, st.phase i = Phase.crossing → st.phase j = Phase.crossing → i = j) ∧
    (st.track_in_use = true → holderCount roster.length st = 1) ∧
    (st.track_in_use = false → holderCount roster.length st = 0) ∧
    crossingCount roster.length st ≤ 1 := by
  obtain ⟨⟨hnd, hq⟩, ⟨htrF, htrT⟩, hbound⟩ := sysInv_reach h
  have hpair : ∀ i j, st.phase i = Phase.crossing → st.phase j = Phase.crossing → i = j := by
    intro i j hi hj
    cases htrck : st.track_in_use
    · exact absurd (Or.inr hi) (htrF htrck i)
    · obtain ⟨i0, -, -, huniq⟩ := htrT htrck
      exact (huniq i (Or.inr hi)).trans (huniq j (Or.inr hj)).symm
  have hc1 : st.track_in_use = true → holderCount roster.length st = 1 := by
    intro htrck
    obtain ⟨i0, hlt0, hh0, huniq⟩ := htrT htrck
    unfold holderCount
    rw [Finset.card_eq_one]
    refine ⟨i0, ?_⟩
    ext j
    simp only [Finset.mem_filter, Finset.mem_range, Finset.mem_singleton]
    constructor
    · rintro ⟨-, hj⟩
      exact huniq j hj
    · rintro rfl
      exact ⟨hlt0, hh0⟩
  have hc0 : st.track_in_use = false → holderCount roster.length st = 0 := by
    intro htrck
    unfold holderCount
    rw [Finset.card_eq_zero]
    apply Finset.filter_eq_empty_iff.mpr
    intro j _
    exact htrF htrck j
  have hsub : (Finset.range roster.length).filter (fun i => st.phase i = Phase.crossing) ⊆
      (Finset.range roster.length).filter (fun i => isHolder st i) := by
    intro a ha
    simp only [Finset.mem_filter] at ha ⊢
    exact ⟨ha.1, Or.inr ha.2⟩
  have hch : crossingCount roster.length st ≤ holderCount roster.length st :=
    Finset.card_le_card hsub
  refine ⟨hpair, hc1, hc0, ?_⟩
  cases htrck : st.track_in_use
  · have h0 := hc0 htrck
    omega
  · have h1 := hc1 htrck
    omega

/-- Roster with a single East high-priority train, used to exercise the
mutual-exclusion theorem on a concrete reachable state. -/
def mutexRoster : List (direction_t × Bool) := [(direction_t.EAST, true)]

/-- State after train 0 loads and enqueues itself. -/
def mutexState1 : SysState :=
  { initSys mutexRoster with
      phase := Function.update (initSys mutexRoster).phase 0 Phase.waiting,
      sched := enqueue (initSys mutexRoster).sched direction_t.EAST true 0 0 }

/-- Scheduler state after the dispatcher pops train 0. -/
def mutexSched2 : SchedState :=
  { east_high := [], east_low := [], west_high := [], west_low := [],
    have_ever_crossed := false, last_dir := direction_t.EAST, same_dir_streak := 0 }

/-- State after the dispatcher grants the track to train 0. -/
def mutexState2 : SysState :=
  { mutexState1 with sched := mutexSched2, track_in_use := true,
                     phase := Function.update mutexState1.phase 0 Phase.granted }

/-- State while train 0 is crossing. -/
def mutexState3 : SysState :=
  { mutexState2 with phase := Function.update mutexState2.phase 0 Phase.crossing }

theorem mutexReach : Reach mutexRoster mutexState3 :=
  Reach.step (Reach.step (Reach.step Reach.init
    (Step.becomeReady (initSys mutexRoster) 0 0 direction_t.EAST true rfl rfl))
    (Step.dispatch mutexState1 0 direction_t.EAST mutexSched2 rfl (by decide)))
    (Step.enterTrack mutexState2 0 (by decide))

theorem mutual_exclusion_witness :
    holderCount 1 mutexState3 = 1 ∧ crossingCount 1 mutexState3 ≤ 1 :=
  ⟨(mutual_exclusion mutexRoster mutexState3 mutexReach).2.1 rfl,
   (mutual_exclusion mutexRoster mutexState3 mutexReach).2.2.2⟩

/-- C2: Before the first crossing (have_ever_crossed false), whenever a
West queue is non-empty the selection function pops the head of West-High
if non-empty, else the head of West-Low, regardless of the East queues and
of priority; once a crossing has completed (have_ever_crossed true) the
bootstrap section is skipped entirely. -/
theorem bootstrap_rule : ∀ s : SchedState,
    (s.have_ever_crossed = false → ∀ n r, s.west_high = n :: r →
      choose_next_idx_full s = some (n.1, direction_t.WEST, { s with west_high := r })) ∧
    (s.have_ever_crossed = false → s.west_high = [] → ∀ n r, s.west_low = n :: r →
      choose_next_idx_full s = some (n.1, direction_t.WEST, { s with west_low := r })) ∧
    (s.have_ever_crossed = true → choose_next_idx_full s = choose_balanced s) := by
  intro s
  refine ⟨?_, ?_, ?_⟩
  · intro h n r hwh
    simp [choose_next_idx_full, h, hwh]
  · intro h hwh n r hwl
    simp [choose_next_idx_full, h, hwh, hwl]
  · intro h
    simp [choose_next_idx_full, h]

/-- Bootstrap exercise state: West-High train 5 ready later than East-High
train 0, West-Low train 6 also ready. -/
def c2state1 : SchedState :=
  ⟨[(0, 0)], [], [(5, 9)], [(6, 1)], false, direction_t.EAST, 0⟩

/-- Bootstrap exercise state with West-High empty. -/
def c2state2 : SchedState :=
  ⟨[(0, 0)], [], [], [(6, 1)], false, direction_t.EAST, 0⟩

/-- State after a crossing has completed. -/
def c2state3 : SchedState :=
  ⟨[(0, 0)], [], [(5, 9)], [], true, direction_t.EAST, 0⟩

theorem bootstrap_rule_witness :
    choose_next_idx_full c2state1 =
      some (5, direction_t.WEST, { c2state1 with west_high := [] }) ∧
    choose_next_idx_full c2state2 =
      some (6, direction_t.WEST, { c2state2 with west_low := [] }) ∧
    choose_next_idx_full c2state3 = choose_balanced c2state3 :=
  ⟨(bootstrap_rule c2state1).1 rfl (5, 9) [] rfl,
   (bootstrap_rule c2state2).2.1 rfl rfl (6, 1) [] rfl,
   (bootstrap_rule c2state3).2.2 rfl⟩

/-- C3: When the bootstrap rule does not apply (a crossing has completed,
or both West queues are empty) and same_dir_streak >= 2, the selection
function inspects the two queues opposite last_dir, High before Low, pops
the head of the first non-empty one, and only if both opposite queues are
empty falls through to the normal rule. -/
theorem balancing_rule : ∀ s : SchedState,
    (s.have_ever_crossed = true ∨ (s.west_high = [] ∧ s.west_low = [])) →
    2 ≤ s.same_dir_streak →
    ((s.last_dir = direction_t.EAST → ∀ n r, s.west_high = n :: r →
        choose_next_idx_full s = some (n.1, direction_t.WEST, { s with west_high := r })) ∧
     (s.last_dir = direction_t.EAST → s.west_high = [] → ∀ n r, s.west_low = n :: r →
        choose_next_idx_full s = some (n.1, direction_t.WEST, { s with west_low := r })) ∧
     (s.last_dir = direction_t.EAST → s.west_high = [] → s.west_low = [] →
        choose_next_idx_full s = choose_normal s) ∧
     (s.last_dir = direction_t.WEST → ∀ n r, s.east_high = n :: r →
        choose_next_idx_full s = some (n.1, direction_t.EAST, { s with east_high := r })) ∧
     (s.last_dir = direction_t.WEST → s.east_high = [] → ∀ n r, s.east_low = n :: r →
        choose_next_idx_full s = some (n.1, direction_t.EAST, { s with east_low := r })) ∧
     (s.last_dir = direction_t.WEST → s.east_high = [] → s.east_low = [] →
        choose_next_idx_full s = choose_normal s)) := by
  intro s hboot hs
  have hpass : choose_next_idx_full s = choose_balanced s := by
    rcases hboot with h | ⟨h1, h2⟩
    · simp [choose_next_idx_full, h]
    · cases hec : s.have_ever_crossed
      · simp [choose_next_idx_full, hec, h1, h2]
      · simp [choose_next_idx_full, hec]
  refine ⟨?_, ?_, ?_, ?_, ?_, ?_⟩
  · intro hld n r hwh
    rw [hpass]
    simp [choose_balanced, hs, hld, hwh]
  · intro hld hwh n r hwl
    rw [hpass]
    simp [choose_balanced, hs, hld, hwh, hwl]
  · intro hld hwh hwl
    rw [hpass]
    simp [choose_balanced, hs, hld, hwh, hwl]
  · intro hld n r heh
    rw [hpass]
    simp [choose_balanced, hs, hld, heh]
  · intro hld heh n r hel
    rw [hpass]
    simp [choose_balanced, hs, hld, heh, hel]
  · intro hld heh hel
    rw [hpass]
    simp [choose_balanced, hs, hld, heh, hel]

/-- Balancing exercise: two consecutive East crossings, West-High train 7
waiting behind an earlier East-High train 0. -/
def c3state1 : SchedState :=
  ⟨[(0, 0)], [], [(7, 9)], [], true, direction_t.EAST, 2⟩

/-- Balancing exercise with only a West-Low train opposite. -/
def c3state2 : SchedState :=
  ⟨[(0, 0)], [], [], [(8, 9)], true, direction_t.EAST, 3⟩

/-- Balancing exercise with the opposite direction empty. -/
def c3state3 : SchedState :=
  ⟨[(0, 0)], [(1, 1)], [], [], true, direction_t.EAST, 2⟩

theorem balancing_rule_witness :
    choose_next_idx_full c3state1 =
      some (7, direction_t.WEST, { c3state1 with west_high := [] }) ∧
    choose_next_idx_full c3state2 =
      some (8, direction_t.WEST, { c3state2 with west_low := [] }) ∧
    choose_next_idx_full c3state3 = choose_normal c3state3 :=
  ⟨(balancing_rule c3state1 (Or.inl rfl) (by decide)).1 rfl (7, 9) [] rfl,
   (balancing_rule c3state2 (Or.inl rfl) (by decide)).2.1 rfl rfl (8, 9) [] rfl,
   (balancing_rule c3state3 (Or.inl rfl) (by decide)).2.2.1 rfl rfl rfl⟩

/-- C4: When neither the bootstrap nor the balancing override applies the
selection is `choose_normal`; there, if either High queue is non-empty the
two High heads are compared with ready_comes_before and the smaller
(ready_ns, id) key is popped; only when both High queues are empty is the
same comparison run on the Low queues; consequently whenever a High queue
is non-empty the popped train comes from a High queue, so a ready
High-priority train is dispatched before any ready Low-priority train. -/
theorem normal_rule : ∀ s : SchedState,
    ((s.have_ever_crossed = true ∨ (s.west_high = [] ∧ s.west_low = [])) →
      s.same_dir_streak < 2 → choose_next_idx_full s = choose_normal s) ∧
    (∀ a ra b rb, s.east_high = a :: ra → s.west_high = b :: rb →
      choose_normal s = (if ready_comes_before a.1 a.2 b.1 b.2
        then some (a.1, direction_t.EAST, { s with east_high := ra })
        else some (b.1, direction_t.WEST, { s with west_high := rb }))) ∧
    (∀ a ra, s.east_high = a :: ra → s.west_high = [] →
      choose_normal s = some (a.1, direction_t.EAST, { s with east_high := ra })) ∧
    (∀ b rb, s.east_high = [] → s.west_high = b :: rb →
      choose_normal s = some (b.1, direction_t.WEST, { s with west_high := rb })) ∧
    (s.east_high = [] → s.west_high = [] →
      ((∀ a ra b rb, s.east_low = a :: ra → s.west_low = b :: rb →
        choose_normal s = (if ready_comes_before a.1 a.2 b.1 b.2
          then some (a.1, direction_t.EAST, { s with east_low := ra })
          else some (b.1, direction_t.WEST, { s with west_low := rb }))) ∧
      (∀ a ra, s.east_low = a :: ra → s.west_low = [] →
        choose_normal s = some (a.1, direction_t.EAST, { s with east_low := ra })) ∧
      (∀ b rb, s.east_low = [] → s.west_low = b :: rb →
        choose_normal s = some (b.1, direction_t.WEST, { s with west_low := rb })))) ∧
    (∀ i d s', choose_normal s = some (i, d, s') →
      (s.east_high ≠ [] ∨ s.west_high ≠ []) →
      ∃ ns rest, (d = direction_t.EAST ∧ s.east_high = (i, ns) :: rest) ∨
                 (d = direction_t.WEST ∧ s.west_high = (i, ns) :: rest)) := by
  intro s
  refine ⟨?_, ?_, ?_, ?_, ?_, ?_⟩
  · intro hboot hs
    have h2 : ¬ (2 ≤ s.same_dir_streak) := by omega
    have hbal : choose_balanced s = choose_normal s := by
      unfold choose_balanced
      rw [if_neg h2]
    rcases hboot with h | ⟨h1, hw2⟩
    · simp [choose_next_idx_full, h, hbal]
    · cases hec : s.have_ever_crossed
      · simp [choose_next_idx_full, hec, h1, hw2, hbal]
      · simp [choose_next_idx_full, hec, hbal]
  · intro a ra b rb heh hwh
    by_cases hr : ready_comes_before a.1 a.2 b.1 b.2 = true
    · simp [choose_normal, choose_from_pair, heh, hwh, hr]
    · simp [choose_normal, choose_from_pair, heh, hwh, hr]
  · intro a ra heh hwh
    simp [choose_normal, choose_from_pair, heh, hwh]
  · intro b rb heh hwh
    simp [choose_normal, choose_from_pair, heh, hwh]
  · intro heh hwh
    refine ⟨?_, ?_, ?_⟩
    · intro a ra b rb hel hwl
      by_cases hr : ready_comes_before a.1 a.2 b.1 b.2 = true
      · simp [choose_normal, choose_from_pair, heh, hwh, hel, hwl, hr]
      · simp [choose_normal, choose_from_pair, heh, hwh, hel, hwl, hr]
    · intro a ra hel hwl
      simp [choose_normal, choose_from_pair, heh, hwh, hel, hwl]
    · intro b rb hel hwl
      simp [choose_normal, choose_from_pair, heh, hwh, hel, hwl]
  · intro i d s' hcn hne
    unfold choose_normal at hcn
    split at hcn
    · split at hcn
      · rename_i heq
        simp only [Option.some.injEq, Prod.mk.injEq] at hcn
        obtain ⟨rfl, rfl, rfl⟩ := hcn
        rcases choose_from_pair_shape heq with ⟨-, ns, hA, hB⟩ | ⟨hf, -⟩
        · exact ⟨ns, _, Or.inl ⟨rfl, hA⟩⟩
        · cases hf
      · rename_i heq
        simp only [Option.some.injEq, Prod.mk.injEq] at hcn
        obtain ⟨rfl, rfl, rfl⟩ := hcn
        rcases choose_from_pair_shape heq with ⟨hf, -⟩ | ⟨-, ns, hB, hA⟩
        · cases hf
        · exact ⟨ns, _, Or.inr ⟨rfl, hB⟩⟩
      · exact Option.noConfusion hcn
    · rename_i hguard
      exfalso
      apply hguard
      rcases hne with h | h <;>
        obtain ⟨x, xs, hx⟩ := List.exists_cons_of_ne_nil h <;> simp [hx]

/-- Normal-rule exercise state: High heads (0, ns 5) East and (1, ns 5)
West, so the tie goes to the lower id. -/
def c4state1 : SchedState :=
  ⟨[(0, 5)], [(9, 0)], [(1, 5)], [], true, direction_t.EAST, 1⟩

theorem normal_rule_witness :
    choose_next_idx_full c4state1 = choose_normal c4state1 ∧
    choose_normal c4state1 =
      (if ready_comes_before 0 5 1 5
       then some (0, direction_t.EAST, { c4state1 with east_high := [] })
       else some (1, direction_t.WEST, { c4state1 with west_high := [] })) :=
  ⟨(normal_rule c4state1).1 (Or.inl rfl) (by decide),
   (normal_rule c4state1).2.1 (0, 5) [] (1, 5) [] rfl rfl⟩

/-- C8: The selection function returns the no-candidate marker (none,
modelling -1) exactly when all four ready queues are empty; whenever the
dispatcher's guard any_ready holds, it returns a valid waiting train: an
index present in one of the four queues.  Hence the no-selection branch is
unreachable under the WaitForCandidate guard. -/
theorem no_selection_iff (s : SchedState) :
    (choose_next_idx_full s = none ↔
      (s.east_high = [] ∧ s.east_low = [] ∧ s.west_high = [] ∧ s.west_low = [])) ∧
    (any_ready s = true →
      ∃ i d s', choose_next_idx_full s = some (i, d, s') ∧ ∃ ns,
        ((i, ns) ∈ s.east_high ∨ (i, ns) ∈ s.east_low ∨
         (i, ns) ∈ s.west_high ∨ (i, ns) ∈ s.west_low)) := by
  refine ⟨choose_none_iff s, ?_⟩
  intro har
  have hne : s.east_high ≠ [] ∨ s.east_low ≠ [] ∨ s.west_high ≠ [] ∨ s.west_low ≠ [] := by
    by_contra hcon
    push_neg at hcon
    obtain ⟨h1, h2, h3, h4⟩ := hcon
    simp [any_ready, h1, h2, h3, h4] at har
  obtain ⟨⟨i, d, s'⟩, hch⟩ := Option.isSome_iff_exists.mp (choose_isSome hne)
  obtain ⟨-, -, -, ns, hc⟩ := choose_popsHead hch
  refine ⟨i, d, s', hch, ns, ?_⟩
  rcases hc with ⟨h1, -⟩ | ⟨h1, -⟩ | ⟨h1, -⟩ | ⟨h1, -⟩
  · exact Or.inl (by rw [h1]; exact List.mem_cons_self _ _)
  · exact Or.inr (Or.inl (by rw [h1]; exact List.mem_cons_self _ _))
  · exact Or.inr (Or.inr (Or.inl (by rw [h1]; exact List.mem_cons_self _ _)))
  · exact Or.inr (Or.inr (Or.inr (by rw [h1]; exact List.mem_cons_self _ _)))

/-- State with a single East-Low train ready. -/
def c8state : SchedState := ⟨[], [(3, 2)], [], [], true, direction_t.WEST, 0⟩

theorem no_selection_iff_witness :
    any_ready c8state = true ∧ (choose_next_idx_full c8state).isSome = true := by
  refine ⟨rfl, ?_⟩
  obtain ⟨i, d, s', hch, -⟩ := (no_selection_iff c8state).2 rfl
  rw [hch]
  rfl

/-- C6: ready_comes_before is the strict lexicographic order on
(ready_ns, id); queue_push inserts its argument (a permutation of consing
it) while preserving ascending (ready_ns, id) order; queue_pop returns the
empty marker (none, modelling -1) exactly on the empty queue and otherwise
removes and returns the head, which on a sorted queue is minimal. -/
theorem queue_ops_correct :
    (∀ a b : QNode, ready_comes_before a.1 a.2 b.1 b.2 = true ↔
      (a.2 < b.2 ∨ (a.2 = b.2 ∧ a.1 < b.1))) ∧
    (∀ q i ns, QSorted q → QSorted (queue_push q i ns)) ∧
    (∀ q i ns, (queue_push q i ns).Perm ((i, ns) :: q)) ∧
    (∀ q, queue_pop q = none ↔ q = []) ∧
    (∀ q i rest, QSorted q → queue_pop q = some (i, rest) →
      ∃ ns, q = (i, ns) :: rest ∧ ∀ x ∈ q, qLe (i, ns) x) :=
  ⟨fun a b => ready_comes_before_iff a.1 a.2 b.1 b.2,
   queue_push_sorted, queue_push_perm, queue_pop_eq_none_iff,
   fun _ _ _ hs hp => queue_pop_min hs hp⟩

theorem queue_ops_correct_witness :
    QSorted (queue_push [((0 : Nat), (3 : Int)), (2, 3)] 1 3) ∧
    (queue_pop ([] : List QNode) = none ↔ ([] : List QNode) = []) :=
  ⟨queue_ops_correct.2.1 [((0 : Nat), (3 : Int)), (2, 3)] 1 3 (by decide),
   queue_ops_correct.2.2.2.1 []⟩

/-- C7: One Done step sets have_ever_crossed, increments the streak when
the finishing train's direction equals last_dir and otherwise sets
last_dir to that direction and resets the streak to 1; folding the Done
bookkeeping over any non-empty history of completed crossings therefore
leaves last_dir equal to the most recent direction and same_dir_streak
equal to the length of the maximal constant suffix of the history. -/
theorem streak_bookkeeping :
    (∀ d s, (finish_update d s).have_ever_crossed = true ∧
      ((finish_update d s).last_dir = if d = s.last_dir then s.last_dir else d) ∧
      ((finish_update d s).same_dir_streak =
        if d = s.last_dir then s.same_dir_streak + 1 else 1)) ∧
    (∀ s0 ds, s0.same_dir_streak = 0 → ds ≠ [] →
      (applyFinishes s0 ds).have_ever_crossed = true ∧
      some (applyFinishes s0 ds).last_dir = ds.reverse.head? ∧
      (applyFinishes s0 ds).same_dir_streak = trailingRun ds) :=
  ⟨fun _ _ => ⟨rfl, rfl, rfl⟩, fun s0 ds h0 hne => streak_counts_suffix s0 h0 ds hne⟩

/-- Crossing history east, east, west, west used to exercise the streak
bookkeeping theorem. -/
def c7history : List direction_t :=
  [direction_t.EAST, direction_t.EAST, direction_t.WEST, direction_t.WEST]

theorem streak_bookkeeping_witness :
    (applyFinishes initialSched c7history).same_dir_streak = trailingRun c7history ∧
    some (applyFinishes initialSched c7history).last_dir = c7history.reverse.head? ∧
    (applyFinishes initialSched c7history).have_ever_crossed = true :=
  ⟨(streak_bookkeeping.2 initialSched c7history rfl (by decide)).2.2,
   (streak_bookkeeping.2 initialSched c7history rfl (by decide)).2.1,
   (streak_bookkeeping.2 initialSched c7history rfl (by decide)).1⟩

/-- In a sorted queue, of two nodes with the same ready_ns the one with
the smaller id sits strictly earlier. -/
theorem sorted_equal_ns_before {q : List QNode} {i j : Nat} {ns : Int}
    (hs : QSorted q) (hi : (i, ns) ∈ q) (hj : (j, ns) ∈ q) (hij : i < j) :
    idsBefore q i j := by
  induction q with
  | nil => cases hi
  | cons c rest ih =>
      rw [QSorted, List.pairwise_cons] at hs
      rcases List.mem_cons.mp hi with hci | hi'
      · have hj' : (j, ns) ∈ rest := by
          rcases List.mem_cons.mp hj with hcj | h
          · rw [← hci] at hcj
            simp only [Prod.mk.injEq] at hcj
            omega
          · exact h
        obtain ⟨l2, l3, hrest⟩ := List.append_of_mem hj'
        refine ⟨[], qIds l2, qIds l3, ?_⟩
        simp [qIds, hrest, ← hci]
      · rcases List.mem_cons.mp hj with hcj | hj'
        · exfalso
          have hle := hs.1 (i, ns) hi'
          have hf : ready_comes_before i ns j ns = false := by
            rw [← hcj] at hle
            exact hle
          rw [ready_comes_before_false_iff] at hf
          omega
        · obtain ⟨l1, l2, l3, hrest⟩ := ih hs.2 hi' hj'
          refine ⟨c.1 :: l1, l2, l3, ?_⟩
          simp only [qIds] at hrest ⊢
          simp [hrest]

/-- State for the C5 counterexample via the balancing rule: East-High
trains 0, 1, 2 and West-High train 3, all with ready_ns 0, the previous
crossing having gone West. -/
def c5BalancedState : SchedState :=
  ⟨[(0, 0), (1, 0), (2, 0)], [], [(3, 0)], [], true, direction_t.WEST, 1⟩

/-- State for the C5 counterexample via priority: East-High train 1 and
East-Low train 0, both with ready_ns 0. -/
def c5PriorityState : SchedState :=
  ⟨[(1, 0)], [(0, 0)], [], [], true, direction_t.WEST, 0⟩

/-- State for the C5 counterexample via the bootstrap rule: East-High
train 0 and West-Low train 1, both with ready_ns 0, before any crossing. -/
def c5BootstrapState : SchedState :=
  ⟨[(0, 0)], [], [], [(1, 0)], false, direction_t.EAST, 0⟩

/-- C5 is false as stated: in each of three concrete scheduler states two
waiting trains have identical ready_ns yet the higher id is dispatched
first — id 3 before id 2 (balancing override, same priority), id 1 before
id 0 (High before Low, same direction), and id 1 before id 0 (bootstrap
override).  Each run lists every waiting train, so the memberships below
exhibit the equal-timestamp pairs. -/
theorem tie_break_counterexample :
    ((2, (0 : Int)) ∈ c5BalancedState.east_high ∧
      (3, (0 : Int)) ∈ c5BalancedState.west_high ∧
      runSchedule 4 c5BalancedState = [0, 1, 3, 2] ∧
      (runSchedule 4 c5BalancedState).indexOf 3 < (runSchedule 4 c5BalancedState).indexOf 2) ∧
    ((0, (0 : Int)) ∈ c5PriorityState.east_low ∧
      (1, (0 : Int)) ∈ c5PriorityState.east_high ∧
      runSchedule 2 c5PriorityState = [1, 0]) ∧
    ((0, (0 : Int)) ∈ c5BootstrapState.east_high ∧
      (1, (0 : Int)) ∈ c5BootstrapState.west_low ∧
      runSchedule 2 c5BootstrapState = [1, 0]) := by
  decide

/-- C5 (amended): for every pair of waiting trains in the same
direction-and-priority queue whose ready_ns values are identical, the
train with the lower id is dispatched before the train with the higher id
(in the arrival-free schedule, with enough fuel to drain the queues). -/
theorem tie_break_same_queue (s : SchedState) (k : Fin 4) (i j : Nat) (ns : Int) (fuel : Nat)
    (hnd : (queuedIds s).Nodup) (hsort : QSorted (getQ k s))
    (hi : (i, ns) ∈ getQ k s) (hj : (j, ns) ∈ getQ k s) (hij : i < j)
    (hfuel : totalReady s ≤ fuel) :
    i ∈ runSchedule fuel s ∧ j ∈ runSchedule fuel s ∧
    (runSchedule fuel s).indexOf i < (runSchedule fuel s).indexOf j := by
  have hbefore : idsBefore (getQ k s) i j := sorted_equal_ns_before hsort hi hj hij
  obtain ⟨o1, o2, ho, hjo2, hio1, hjo1⟩ := runSchedule_order hnd ⟨k, hbefore⟩ hfuel
  have hji : j ≠ i := by omega
  refine ⟨?_, ?_, ?_⟩
  · rw [ho]
    exact List.mem_append.mpr (Or.inr (List.mem_cons_self _ _))
  · rw [ho]
    exact List.mem_append.mpr (Or.inr (List.mem_cons_of_mem _ hjo2))
  · rw [ho, List.indexOf_append_of_not_mem hio1, List.indexOf_append_of_not_mem hjo1,
      List.indexOf_cons_self, List.indexOf_cons_ne _ (by omega : i ≠ j)]
    omega

/-- Queue state with East-High trains 1 and 2, both with ready_ns 0. -/
def c5WitnessState : SchedState :=
  ⟨[(1, 0), (2, 0)], [], [], [], true, direction_t.EAST, 0⟩

theorem tie_break_same_queue_witness :
    1 ∈ runSchedule 2 c5WitnessState ∧ 2 ∈ runSchedule 2 c5WitnessState ∧
    (runSchedule 2 c5WitnessState).indexOf 1 < (runSchedule 2 c5WitnessState).indexOf 2 :=
  tie_break_same_queue c5WitnessState 0 1 2 0 2 (by decide) (by decide) (by decide)
    (by decide) (by decide) (by decide)

/-- Parse success is exactly the spec's well-formedness: scanf converts a
character and two numbers, the character is a recognized direction code,
and both durations lie in [1,99]. -/
theorem parse_line_isSome_iff (l : List Char) (id : Nat) :
    (parse_line l id).isSome = true ↔ lineWellFormed l := by
  cases hscan : scanLine l with
  | none => simp [parse_line, lineWellFormed, hscan]
  | some t =>
      obtain ⟨c, load, cross⟩ := t
      simp only [parse_line, lineWellFormed, hscan, Option.some.injEq, Prod.mk.injEq]
      constructor
      · intro h
        by_cases h1 : load < 1 ∨ load > 99 ∨ cross < 1 ∨ cross > 99
        · rw [if_pos h1] at h
          simp at h
        · rw [if_neg h1] at h
          push_neg at h1
          refine ⟨c, load, cross, ⟨rfl, rfl, rfl⟩, ?_, by omega, by omega, by omega, by omega⟩
          by_cases hc1 : c = 'e'
          · exact Or.inl hc1
          by_cases hc2 : c = 'E'
          · exact Or.inr (Or.inl hc2)
          by_cases hc3 : c = 'w'
          · exact Or.inr (Or.inr (Or.inl hc3))
          by_cases hc4 : c = 'W'
          · exact Or.inr (Or.inr (Or.inr hc4))
          rw [if_neg hc1, if_neg hc2, if_neg hc3, if_neg hc4] at h
          simp at h
      · rintro ⟨c', l', x', ⟨rfl, rfl, rfl⟩, hdir, h1, h2, h3, h4⟩
        have hr : ¬ (load < 1 ∨ load > 99 ∨ cross < 1 ∨ cross > 99) := by omega
        rw [if_neg hr]
        rcases hdir with rfl | rfl | rfl | rfl
        · rfl
        · rfl
        · rfl
        · rfl

/-- Whether a line parses does not depend on the id it is given. -/
theorem parse_line_isSome_id (l : List Char) (id1 id2 : Nat) :
    (parse_line l id1).isSome = (parse_line l id2).isSome := by
  cases hscan : scanLine l with
  | none => simp [parse_line, hscan]
  | some t =>
      obtain ⟨c, load, cross⟩ := t
      simp only [parse_line, hscan]
      split_ifs <;> rfl

/-- On a newline-free blank line (only spaces and tabs) scanf whitespace
skipping consumes everything. -/
theorem blank_skipWS {l : List Char} (hnl : ∀ c ∈ l, c.toNat ≠ 10)
    (hb : isBlankLine l = true) : skipWS l = [] := by
  induction l with
  | nil => rfl
  | cons c cs ih =>
      have hnlc := hnl c (List.mem_cons_self c cs)
      have hnl' : ∀ x ∈ cs, x.toNat ≠ 10 := fun x hx => hnl x (List.mem_cons_of_mem _ hx)
      simp only [isBlankLine] at hb
      by_cases hc : (c.toNat = 32 || c.toNat = 9) = true
      · rw [if_pos hc] at hb
        have hws : isWS c = true := by
          rcases Bool.or_eq_true_iff.mp hc with h | h <;> simp [isWS, h]
        simp only [skipWS]
        rw [if_pos hws]
        exact ih hnl' hb
      · rw [if_neg hc] at hb
        exact absurd (by simpa using hb) hnlc

/-- A newline-free blank line never parses. -/
theorem parse_line_blank {l : List Char} (hnl : ∀ c ∈ l, c.toNat ≠ 10)
    (hb : isBlankLine l = true) (id : Nat) : parse_line l id = none := by
  have h1 : scanChar l = none := by simp [scanChar, blank_skipWS hnl hb]
  simp [parse_line, scanLine, h1]

/-- A line that parses is not blank (newline-free lines). -/
theorem nonblank_of_parse {l : List Char} {id : Nat} (hnl : ∀ c ∈ l, c.toNat ≠ 10)
    (h : (parse_line l id).isSome = true) : isBlankLine l = false := by
  cases hbl : isBlankLine l
  · rfl
  · rw [parse_line_blank hnl hbl id] at h
    simp at h

/-- Every line of a successfully parsed batch parses. -/
theorem parse_all_ok_mem {lines : List (List Char)} {id : Nat} {ts : List train_t}
    (h : parse_all lines id = Except.ok ts) :
    ∀ l ∈ lines, ∃ i, (parse_line l i).isSome = true := by
  induction lines generalizing id ts with
  | nil =>
      intro l hl
      cases hl
  | cons x xs ih =>
      intro l hl
      cases hp : parse_line x id with
      | none =>
          simp only [parse_all, hp] at h
          exact absurd h (by simp)
      | some t =>
          simp only [parse_all, hp] at h
          rcases List.mem_cons.mp hl with rfl | hl'
          · exact ⟨id, by rw [hp]; rfl⟩
          · cases hrec : parse_all xs (id + 1) with
            | error e =>
                rw [hrec] at h
                simp at h
            | ok ts' => exact ih hrec l hl'

/-- A failed batch parse blames the first failing line: the error carries
its 1-based position and its text. -/
theorem parse_all_error_spec {lines : List (List Char)} {id : Nat} {k : Nat} {bad : List Char}
    (h : parse_all lines id = Except.error (k, bad)) :
    ∃ idx, k = id + idx + 1 ∧ lines.get? idx = some bad ∧ parse_line bad (id + idx) = none := by
  induction lines generalizing id with
  | nil => simp [parse_all] at h
  | cons x xs ih =>
      cases hp : parse_line x id with
      | none =>
          simp only [parse_all, hp] at h
          obtain ⟨h1, h2⟩ : id + 1 = k ∧ x = bad := by
            simp only [Except.error.injEq, Prod.mk.injEq] at h
            exact h
          refine ⟨0, by omega, ?_, ?_⟩
          · simp [← h2]
          · rw [← h2]
            simpa using hp
      | some t =>
          simp only [parse_all, hp] at h
          cases hrec : parse_all xs (id + 1) with
          | ok ts' =>
              rw [hrec] at h
              simp at h
          | error e =>
              rw [hrec] at h
              simp only [Except.error.injEq] at h
              subst h
              obtain ⟨idx, hk, hget, hp2⟩ := ih hrec
              refine ⟨idx + 1, by omega, by simpa using hget, ?_⟩
              have harith : id + (idx + 1) = id + 1 + idx := by omega
              rw [harith]
              exact hp2

/-- A malformed non-blank line anywhere in the file makes load_trains fail,
blaming a line that indeed fails to parse. -/
theorem load_trains_error_of_malformed {lines : List (List Char)}
    (hnl : ∀ l ∈ lines, ∀ c ∈ l, c.toNat ≠ 10)
    (hmal : ∃ l ∈ lines, isBlankLine l = false ∧ parse_line l 0 = none) :
    ∃ k bad, load_trains lines = Except.error (k, bad) ∧ 1 ≤ k ∧
      lines.get? (k - 1) = some bad ∧ parse_line bad (k - 1) = none := by
  obtain ⟨lm, hlm, hnb, hpf⟩ := hmal
  have hc0 : (lines.filter (fun l => !isBlankLine l)).length ≠ 0 := by
    have hm : lm ∈ lines.filter (fun l => !isBlankLine l) :=
      List.mem_filter.mpr ⟨hlm, by simp [hnb]⟩
    have h2 := List.length_pos.mpr (List.ne_nil_of_mem hm)
    omega
  cases hres : parse_all (lines.take ((lines.filter (fun l => !isBlankLine l)).length)) 0 with
  | ok ts =>
      exfalso
      have hall : ∀ l ∈ lines.take ((lines.filter (fun l => !isBlankLine l)).length),
          isBlankLine l = false := by
        intro l hl
        obtain ⟨i, hpi⟩ := parse_all_ok_mem hres l hl
        exact nonblank_of_parse (hnl l (List.mem_of_mem_take hl)) hpi
      have hlen : (lines.filter (fun l => !isBlankLine l)).length ≤ lines.length :=
        List.length_filter_le _ _
      have htlen : (lines.take ((lines.filter (fun l => !isBlankLine l)).length)).length =
          (lines.filter (fun l => !isBlankLine l)).length := by
        rw [List.length_take]
        omega
      have htake : (lines.take ((lines.filter (fun l => !isBlankLine l)).length)).filter
          (fun l => !isBlankLine l) =
          lines.take ((lines.filter (fun l => !isBlankLine l)).length) := by
        apply List.filter_eq_self.mpr
        intro l hl
        simp [hall l hl]
      have hsplit : lines =
          lines.take ((lines.filter (fun l => !isBlankLine l)).length) ++
          lines.drop ((lines.filter (fun l => !isBlankLine l)).length) :=
        (List.take_append_drop _ lines).symm
      have hcount : (lines.filter (fun l => !isBlankLine l)).length =
          ((lines.take ((lines.filter (fun l => !isBlankLine l)).length)).filter
            (fun l => !isBlankLine l)).length +
          ((lines.drop ((lines.filter (fun l => !isBlankLine l)).length)).filter
            (fun l => !isBlankLine l)).length := by
        conv_lhs => rw [hsplit]
        rw [List.filter_append, List.length_append]
      rw [htake, htlen] at hcount
      have hdrop0 : ((lines.drop ((lines.filter (fun l => !isBlankLine l)).length)).filter
          (fun l => !isBlankLine l)).length = 0 := by omega
      have hlm2 : lm ∈ lines.take ((lines.filter (fun l => !isBlankLine l)).length) := by
        have hlm' := hlm
        rw [hsplit] at hlm'
        rcases List.mem_append.mp hlm' with h | h
        · exact h
        · exfalso
          have hmem : lm ∈ (lines.drop ((lines.filter (fun l => !isBlankLine l)).length)).filter
              (fun l => !isBlankLine l) := List.mem_filter.mpr ⟨h, by simp [hnb]⟩
          rw [List.length_eq_zero] at hdrop0
          rw [hdrop0] at hmem
          cases hmem
      obtain ⟨i, hpi⟩ := parse_all_ok_mem hres lm hlm2
      rw [parse_line_isSome_id lm i 0, hpf] at hpi
      simp at hpi
  | error e =>
      obtain ⟨k, bad⟩ := e
      obtain ⟨idx, hk, hget, hp2⟩ := parse_all_error_spec hres
      refine ⟨k, bad, ?_, by omega, ?_, ?_⟩
      · simp only [load_trains]
        rw [if_neg hc0]
        exact hres
      · have hidx : idx < (lines.filter (fun l => !isBlankLine l)).length := by
          obtain ⟨hlt, -⟩ := List.get?_eq_some.mp hget
          rw [List.length_take] at hlt
          omega
        have hg2 : lines.get? idx = some bad := by
          rw [← List.get?_take hidx]
          exact hget
        have hk1 : k - 1 = idx := by omega
        rw [hk1]
        exact hg2
      · have hk1 : k - 1 = idx := by omega
        rw [hk1]
        simpa using hp2

/-- C9: For every input line, parsing succeeds exactly when the line holds
a recognized direction code followed by a loading and a crossing duration
each in [1,99]; and a malformed (non-blank) line anywhere in the roster
makes the whole load fail with an error naming a line of the file that
fails to parse, after which main exits non-zero having created no worker
thread.  Lines are modelled newline-stripped (the fgets terminator). -/
theorem parse_and_load_validation :
    (∀ l id, (parse_line l id).isSome = true ↔ lineWellFormed l) ∧
    (∀ lines : List (List Char), (∀ l ∈ lines, ∀ c ∈ l, c.toNat ≠ 10) →
      (∃ l ∈ lines, isBlankLine l = false ∧ parse_line l 0 = none) →
      ∃ k bad, load_trains lines = Except.error (k, bad) ∧ 1 ≤ k ∧
        lines.get? (k - 1) = some bad ∧ parse_line bad (k - 1) = none ∧
        main_exit lines = 1 ∧ workers_spawned lines = 0) := by
  refine ⟨parse_line_isSome_iff, ?_⟩
  intro lines hnl hmal
  obtain ⟨k, bad, herr, hk, hget, hp⟩ := load_trains_error_of_malformed hnl hmal
  exact ⟨k, bad, herr, hk, hget, hp, by simp [main_exit, herr], by simp [workers_spawned, herr]⟩

/-- A valid roster line "E 1 1". -/
def c9goodLine : List Char := ['E', ' ', '1', ' ', '1']

/-- A malformed roster line. -/
def c9badLine : List Char := ['x']

/-- A roster file with one valid and one malformed line. -/
def c9lines : List (List Char) := [c9goodLine, c9badLine]

theorem parse_and_load_validation_witness :
    ((parse_line c9goodLine 0).isSome = true ↔ lineWellFormed c9goodLine) ∧
    main_exit c9lines = 1 ∧ workers_spawned c9lines = 0 := by
  obtain ⟨k, bad, herr, hk, hget, hp, hm, hw⟩ :=
    parse_and_load_validation.2 c9lines (by decide)
      ⟨c9badLine, by decide, by decide, by decide⟩
  exact ⟨parse_and_load_validation.1 c9goodLine 0, hm, hw⟩

/-- C10: For a roster file containing only blank lines (in particular an
empty file), load_trains succeeds with an empty train list (n_trains = 0,
nothing allocated), main creates no worker and exits 0, the schedule
dispatches nothing, and with an empty roster no system step is possible —
the dispatcher's loop guard trains_finished < n_trains is immediately
false. -/
theorem empty_roster_run :
    ∀ lines : List (List Char), (∀ l ∈ lines, isBlankLine l = true) →
      load_trains lines = Except.ok [] ∧ main_exit lines = 0 ∧ workers_spawned lines = 0 ∧
      (∀ fuel, runSchedule fuel initialSched = []) ∧
      (∀ st', ¬ Step [] (initSys []) st') := by
  intro lines hbl
  have hload : load_trains lines = Except.ok [] := by
    have hcnt : (lines.filter (fun l => !isBlankLine l)).length = 0 := by
      rw [List.length_eq_zero]
      apply List.filter_eq_nil_iff.mpr
      intro l hl
      simp [hbl l hl]
    simp only [load_trains]
    rw [if_pos hcnt]
  refine ⟨hload, by simp [main_exit, hload], by simp [workers_spawned, hload], ?_, ?_⟩
  · intro fuel
    cases fuel with
    | zero => rfl
    | succ n =>
        have hch : choose_next_idx_full initialSched = none := rfl
        simp [runSchedule, hch]
  · intro st' hstep
    cases hstep with
    | becomeReady i ns d hp hph hro => simp at hro
    | dispatch i d sch' htr hch =>
        have hnone : choose_next_idx_full (initSys []).sched = none := rfl
        rw [hnone] at hch
        exact Option.noConfusion hch
    | enterTrack i hph =>
        exact Phase.noConfusion (show Phase.loading = Phase.granted from hph)
    | finishCross i d hp hph hro =>
        exact Phase.noConfusion (show Phase.loading = Phase.crossing from hph)

/-- A roster file consisting of a line of blanks and an empty line. -/
def c10lines : List (List Char) := [[' ', '\t'], []]

theorem empty_roster_run_witness :
    load_trains c10lines = Except.ok [] ∧ main_exit c10lines = 0 ∧
    workers_spawned c10lines = 0 ∧ runSchedule 5 initialSched = [] := by
  obtain ⟨h1, h2, h3, h4, -⟩ := empty_roster_run c10lines (by decide)
  exact ⟨h1, h2, h3, h4 5⟩
